import Mathlib

/-!
# Verification of `dudo/gods`: thread-safe generic containers

Shallow embedding of the four packages `priorityqueue`, `queue`, `stack` and
`deque`.  A container is modelled by the sequence it holds; every method takes
the state before the call and returns the state after it together with the
returned values.  A Go run-time panic (an index out of range) is the `none` of
an `Option`; a returned Go `error` is an `Option String` holding the message,
`none` standing for `nil`.  The zero value of the type parameter `T` is the
`default` of an `Inhabited T`; for the three containers that keep their values
in a `container/list`, a `GoType T` also tells which values are stored as the
nil interface, on which the type assertion `.(T)` panics.  The mutex of each
container is not modelled: all definitions describe one call running alone.
-/

set_option autoImplicit false

namespace priorityqueue

/-- Item of `priorityqueue.go`.  `Priority` is a Go `int` that is only ever
compared, never computed with; `index` is the internal slice position. -/
structure Item (T : Type) where
  Value : T
  Priority : Int
  index : Nat
deriving DecidableEq

/-- Comparator of `priorityqueue.go`: true when `a` should come before `b`. -/
abbrev Comparator (T : Type) := Item T → Item T → Bool

/-- PriorityQueue of `priorityqueue.go` without its mutex.  The slice of item
pointers is a list of records: every pointer stored by `PushItem` is freshly
allocated, so no two positions alias. -/
structure PriorityQueue (T : Type) where
  items : List (Item T)
  comparator : Comparator T

variable {T : Type}

/-- Len of `priorityqueue.go`. -/
def PriorityQueue.Len (pq : PriorityQueue T) : Nat :=
  pq.items.length

/-- Swap of `priorityqueue.go`: exchange the two slots, then write the position
of each slot into the item it now holds.  An index out of range panics. -/
def PriorityQueue.Swap (pq : PriorityQueue T) (i j : Nat) : Option (PriorityQueue T) :=
  match pq.items[i]?, pq.items[j]? with
  | some a, some b =>
    let s := (pq.items.set i b).set j a
    match s[i]? with
    | none => none
    | some x =>
      let s1 := s.set i { x with index := i }
      match s1[j]? with
      | none => none
      | some y => some { pq with items := s1.set j { y with index := j } }
  | _, _ => none

/-- Less of `priorityqueue.go`: the comparator applied to two slots. -/
def PriorityQueue.Less (pq : PriorityQueue T) (i j : Nat) : Option Bool :=
  match pq.items[i]?, pq.items[j]? with
  | some a, some b => some (pq.comparator a b)
  | _, _ => none

/-- Push of `priorityqueue.go` (the `heap.Interface` method): record the
current length in the item and append it. -/
def PriorityQueue.Push (pq : PriorityQueue T) (x : Item T) : PriorityQueue T :=
  { pq with items := pq.items ++ [{ x with index := pq.items.length }] }

/-- Pop of `priorityqueue.go` (the `heap.Interface` method): remove and return
the last slot.  On an empty slice `items[n-1]` panics. -/
def PriorityQueue.Pop (pq : PriorityQueue T) : Option (Item T × PriorityQueue T) :=
  let n := pq.items.length
  if n = 0 then none
  else
    match pq.items[n - 1]? with
    | none => none
    | some item => some (item, { pq with items := pq.items.take (n - 1) })

end priorityqueue

namespace heap

open priorityqueue

variable {T : Type}

/-- Modelled from the spec: the sift-up loop of `container/heap` (`up`), which
`priorityqueue.go` imports from the Go standard library.  One iteration:
`i := (j-1)/2`; stop when `i == j` or `!h.Less(j, i)`; otherwise `h.Swap(i, j)`
and continue from `i`.  In Go `(0-1)/2` truncates to `0`, as does the natural
number expression.  The first argument bounds the number of iterations. -/
def upLoop : Nat → PriorityQueue T → Nat → Option (PriorityQueue T)
  | 0, pq, _ => some pq
  | fuel + 1, pq, j =>
    let i := (j - 1) / 2
    if i = j then some pq
    else
      match pq.Less j i with
      | none => none
      | some false => some pq
      | some true =>
        match pq.Swap i j with
        | none => none
        | some pq1 => upLoop fuel pq1 i

/-- Sift-up from slot `j`.  The loop index at least halves on every
iteration, so `j` iterations are never exhausted (`up_unfold`). -/
def up (pq : PriorityQueue T) (j : Nat) : Option (PriorityQueue T) :=
  upLoop j pq j

/-- Modelled from the spec: the sift-down loop of `container/heap` (`down`)
over the slots below `n`.  One iteration: `j1 := 2*i+1`; stop when `j1 >= n`;
take `j := j1`, or `j1+1` when that is below `n` and `h.Less(j1+1, j1)`; stop
when `!h.Less(j, i)`; otherwise `h.Swap(i, j)` and continue from `j`.  The
boolean the library function returns is unused by `heap.Pop` and left out. -/
def downLoop (n : Nat) : Nat → PriorityQueue T → Nat → Option (PriorityQueue T)
  | 0, pq, _ => some pq
  | fuel + 1, pq, i =>
    let j1 := 2 * i + 1
    if n ≤ j1 then some pq
    else
      match (if j1 + 1 < n then pq.Less (j1 + 1) j1 else some false) with
      | none => none
      | some r =>
        let j := if r then j1 + 1 else j1
        match pq.Less j i with
        | none => none
        | some false => some pq
        | some true =>
          match pq.Swap i j with
          | none => none
          | some pq1 => downLoop n fuel pq1 j

/-- Sift-down from slot `i0` over the slots below `n`.  The loop index grows
on every iteration and stops at `n`, so `n - i0` iterations are never
exhausted (`down_unfold`). -/
def down (pq : PriorityQueue T) (i0 n : Nat) : Option (PriorityQueue T) :=
  downLoop n (n - i0) pq i0

/-- The loop of `heap.Init`: `down(h, i, n)` for `i = k-1` down to `0`. -/
def initLoop (n : Nat) : Nat → PriorityQueue T → Option (PriorityQueue T)
  | 0, pq => some pq
  | k + 1, pq =>
    match down pq k n with
    | none => none
    | some pq1 => initLoop n k pq1

/-- Modelled from the spec: `heap.Init` of `container/heap`, which calls
`down(h, i, n)` for `i = n/2 - 1` down to `0`, with `n := h.Len()`. -/
def Init (pq : PriorityQueue T) : Option (PriorityQueue T) :=
  initLoop pq.Len (pq.Len / 2) pq

/-- Modelled from the spec: `heap.Push` of `container/heap`: `h.Push(x)` then
`up(h, h.Len()-1)`. -/
def Push (pq : PriorityQueue T) (x : Item T) : Option (PriorityQueue T) :=
  let pq1 := pq.Push x
  up pq1 (pq1.Len - 1)

/-- Modelled from the spec: `heap.Pop` of `container/heap`: `n := h.Len()-1`,
`h.Swap(0, n)`, `down(h, 0, n)`, then `h.Pop()`.  With no element `n` is `-1`
and the swap panics. -/
def Pop (pq : PriorityQueue T) : Option (Item T × PriorityQueue T) :=
  if pq.Len = 0 then none
  else
    let n := pq.Len - 1
    match pq.Swap 0 n with
    | none => none
    | some pq1 =>
      match down pq1 0 n with
      | none => none
      | some pq2 => pq2.Pop

end heap

namespace priorityqueue

variable {T : Type}

/-- New of `priorityqueue.go`: the empty slice, the comparator, and
`heap.Init`, which on the empty slice runs no iteration and cannot panic
(`heap_Init_New`). -/
def New (comparator : Comparator T) : PriorityQueue T :=
  let pq : PriorityQueue T := { items := [], comparator := comparator }
  match heap.Init pq with
  | some pq1 => pq1
  | none => pq

/-- PeekItem of `priorityqueue.go`: value, error and the (untouched) queue;
`none` would be a panic. -/
def PriorityQueue.PeekItem [Inhabited T] (pq : PriorityQueue T) :
    Option ((T × Option String) × PriorityQueue T) :=
  if pq.items.length = 0 then some ((default, some "priority queue is empty"), pq)
  else
    match pq.items[0]? with
    | none => none
    | some x => some ((x.Value, none), pq)

/-- PushItem of `priorityqueue.go`: `none` would be a panic. -/
def PriorityQueue.PushItem (pq : PriorityQueue T) (value : T) (priority : Int) :
    Option (PriorityQueue T) :=
  heap.Push pq { Value := value, Priority := priority, index := 0 }

/-- PopItem of `priorityqueue.go`: value, error and the queue afterwards;
`none` would be a panic. -/
def PriorityQueue.PopItem [Inhabited T] (pq : PriorityQueue T) :
    Option ((T × Option String) × PriorityQueue T) :=
  if pq.items.length = 0 then some ((default, some "priority queue is empty"), pq)
  else
    match heap.Pop pq with
    | none => none
    | some (item, pq1) => some ((item.Value, none), pq1)

/-- The test loop of `priorityqueue_test.go` that fills a queue: `PushItem`
for every (value, priority) pair, in order. -/
def pushAll (pq : PriorityQueue T) : List (T × Int) → Option (PriorityQueue T)
  | [] => some pq
  | (v, p) :: rest =>
    match pq.PushItem v p with
    | none => none
    | some pq1 => pushAll pq1 rest

/-- The test loop `for pq.Len() > 0 { value, _ := pq.PopItem(); ... }` with the
number of iterations bounded by the first argument; it collects what every
`PopItem` returned. -/
def drainLoop [Inhabited T] :
    Nat → PriorityQueue T → Option (List (T × Option String) × PriorityQueue T)
  | 0, pq => some ([], pq)
  | fuel + 1, pq =>
    if pq.Len = 0 then some ([], pq)
    else
      match pq.PopItem with
      | none => none
      | some (r, pq1) =>
        match drainLoop fuel pq1 with
        | none => none
        | some (rs, pq2) => some (r :: rs, pq2)

/-- Calling `PopItem` until `Len()` is 0.  Every successful `PopItem` lowers
the length by one, so `Len()` iterations reach the empty queue. -/
def drain [Inhabited T] (pq : PriorityQueue T) :
    Option (List (T × Option String) × PriorityQueue T) :=
  drainLoop pq.Len pq

/-- The items that the `heap.Pop` calls inside the `PopItem`s of `drainLoop`
hand back, in the order of the calls. -/
def drainItems : Nat → PriorityQueue T → Option (List (Item T))
  | 0, _ => some []
  | fuel + 1, pq =>
    if pq.Len = 0 then some []
    else
      match heap.Pop pq with
      | none => none
      | some (item, pq1) =>
        match drainItems fuel pq1 with
        | none => none
        | some rest => some (item :: rest)

/-- Exactly `n` calls of `PopItem`, collecting what each returned. -/
def popN [Inhabited T] :
    Nat → PriorityQueue T → Option (List (T × Option String) × PriorityQueue T)
  | 0, pq => some ([], pq)
  | n + 1, pq =>
    match pq.PopItem with
    | none => none
    | some (r, pq1) =>
      match popN n pq1 with
      | none => none
      | some (rs, pq2) => some (r :: rs, pq2)

/-- One call of the public interface. -/
inductive Op (T : Type) where
  | push (value : T) (priority : Int)
  | pop
  | peek

/-- Perform one call; a `PushItem` returns nothing. -/
def PriorityQueue.call [Inhabited T] (pq : PriorityQueue T) :
    Op T → Option (Option (T × Option String) × PriorityQueue T)
  | .push v p =>
    match pq.PushItem v p with
    | none => none
    | some pq1 => some (none, pq1)
  | .pop =>
    match pq.PopItem with
    | none => none
    | some (r, pq1) => some (some r, pq1)
  | .peek =>
    match pq.PeekItem with
    | none => none
    | some (r, pq1) => some (some r, pq1)

/-- Perform a sequence of calls, in order. -/
def PriorityQueue.run [Inhabited T] (pq : PriorityQueue T) :
    List (Op T) → Option (PriorityQueue T)
  | [] => some pq
  | op :: rest =>
    match pq.call op with
    | none => none
    | some (_, pq1) => pq1.run rest

/-- Number of `PushItem` calls in a sequence of calls. -/
def countPush : List (Op T) → Nat
  | [] => 0
  | .push _ _ :: rest => countPush rest + 1
  | _ :: rest => countPush rest

/-- Number of `PopItem` calls that return a nil error when the sequence of
calls is performed from `pq`. -/
def countPopOk [Inhabited T] (pq : PriorityQueue T) : List (Op T) → Nat
  | [] => 0
  | op :: rest =>
    match pq.call op with
    | none => 0
    | some (r, pq1) =>
      (match op, r with
        | .pop, some (_, none) => 1
        | _, _ => 0) + countPopOk pq1 rest

/-- The exported fields of an item: what a comparator written by a caller can read. -/
def Item.key (a : Item T) : T × Int := (a.Value, a.Priority)

/-- A comparator that is a strict weak order on items: irreflexive,
transitive, with a transitive incomparability, and reading only the exported
fields `Value` and `Priority` (the field `index` is private to the package). -/
structure StrictWeakOrder (cmp : Comparator T) : Prop where
  exported : ∀ a b a1 b1 : Item T, a.key = a1.key → b.key = b1.key → cmp a b = cmp a1 b1
  irrefl : ∀ a, cmp a a = false
  trans : ∀ a b c, cmp a b = true → cmp b c = true → cmp a c = true
  incomp : ∀ a b c, cmp a b = false → cmp b a = false → cmp b c = false → cmp c b = false →
    cmp a c = false ∧ cmp c a = false

/-- The comparator `a.Priority < b.Priority` of the tests (smallest first). -/
def minFirst : Comparator T := fun a b => decide (a.Priority < b.Priority)

/-- The comparator `a.Priority > b.Priority` of the tests (largest first). -/
def maxFirst : Comparator T := fun a b => decide (a.Priority > b.Priority)

end priorityqueue

namespace list

variable {T : Type}

/-- Modelled from the spec: an element of the doubly linked sequence
`container/list` of the Go standard library, identified by its position in
the sequence, with the value it holds. -/
structure Element (T : Type) where
  pos : Nat
  Value : T

/-- Modelled from the spec: `PushBack` of `container/list`. -/
def PushBack (l : List T) (v : T) : List T := l ++ [v]

/-- Modelled from the spec: `PushFront` of `container/list`. -/
def PushFront (l : List T) (v : T) : List T := v :: l

/-- Modelled from the spec: `Front` of `container/list`; nil (`none`) on an
empty sequence. -/
def Front (l : List T) : Option (Element T) :=
  match l[0]? with
  | none => none
  | some v => some { pos := 0, Value := v }

/-- Modelled from the spec: `Back` of `container/list`; nil (`none`) on an
empty sequence. -/
def Back (l : List T) : Option (Element T) :=
  match l[l.length - 1]? with
  | none => none
  | some v => some { pos := l.length - 1, Value := v }

/-- Modelled from the spec: `Remove` of `container/list`: unlink the element. -/
def Remove (l : List T) (e : Element T) : List T := l.eraseIdx e.pos

end list

/-- A type argument of the generic containers (`T any`): its zero value, and
which of its values become the nil interface when they are stored in the
`Value any` of a list element.  For a type that is not an interface no value
does; for an interface type (`any`, `error`) exactly the nil value, which is
the zero value. -/
class GoType (T : Type) extends Inhabited T where
  isNilInterface : T → Bool
  nil_is_zero : ∀ v, isNilInterface v = true → v = default

/-- The type assertion `x.(T)` of `queue.go`, `stack.go` and `deque.go`,
applied to the `Value any` of a list element that was stored from a `T`: it
panics (`none`) on the nil interface and otherwise yields the stored value. -/
def typeAssert {T : Type} [GoType T] (v : T) : Option T :=
  if GoType.isNilInterface v then none else some v

/-- An interface type such as `any`, as far as a container sees it: the nil
interface, or a value of a dynamic type `V`. -/
inductive Iface (V : Type) where
  | nil
  | val (v : V)
deriving DecidableEq

/-- An interface type as a type argument: `nil` is its zero value and the
only value stored as the nil interface. -/
instance ifaceGoType (V : Type) : GoType (Iface V) where
  default := Iface.nil
  isNilInterface := fun v =>
    match v with
    | .nil => true
    | .val _ => false
  nil_is_zero := fun v h =>
    match v, h with
    | .nil, _ => rfl

/-- The type `int` as a type argument: not an interface, so no value is
stored as the nil interface. -/
instance natGoType : GoType Nat where
  default := 0
  isNilInterface := fun _ => false
  nil_is_zero := fun _ h => Bool.noConfusion h

namespace queue

variable {T : Type}

/-- Queue of `queue.go` without its mutex. -/
structure Queue (T : Type) where
  items : List T

/-- New of `queue.go`. -/
def New : Queue T := { items := [] }

/-- Enqueue of `queue.go`. -/
def Queue.Enqueue (q : Queue T) (value : T) : Queue T :=
  { items := list.PushBack q.items value }

/-- Dequeue of `queue.go`.  `none` is a panic: of a nil element, or of the
assertion `element.Value.(T)` on a stored nil interface, which is evaluated
after the element has been removed. -/
def Queue.Dequeue [GoType T] (q : Queue T) : Option ((T × Option String) × Queue T) :=
  if q.items.length = 0 then some ((default, some "queue is empty"), q)
  else
    match list.Front q.items with
    | none => none
    | some element =>
      let items1 := list.Remove q.items element
      match typeAssert element.Value with
      | none => none
      | some v => some ((v, none), { items := items1 })

/-- Peek of `queue.go`.  `none` is a panic: of a nil element, or of the
assertion `Value.(T)` on a stored nil interface. -/
def Queue.Peek [GoType T] (q : Queue T) : Option ((T × Option String) × Queue T) :=
  if q.items.length = 0 then some ((default, some "queue is empty"), q)
  else
    match list.Front q.items with
    | none => none
    | some element =>
      match typeAssert element.Value with
      | none => none
      | some v => some ((v, none), q)

/-- Len of `queue.go`. -/
def Queue.Len (q : Queue T) : Nat := q.items.length

/-- IsEmpty of `queue.go`. -/
def Queue.IsEmpty (q : Queue T) : Bool := q.items.length == 0

/-- Enqueue every value of a list, in order. -/
def enqueueAll (q : Queue T) : List T → Queue T
  | [] => q
  | v :: rest => enqueueAll (q.Enqueue v) rest

/-- Exactly `n` calls of `Dequeue`, collecting what each returned. -/
def dequeueN [GoType T] : Nat → Queue T → Option (List (T × Option String) × Queue T)
  | 0, q => some ([], q)
  | n + 1, q =>
    match q.Dequeue with
    | none => none
    | some (r, q1) =>
      match dequeueN n q1 with
      | none => none
      | some (rs, q2) => some (r :: rs, q2)

end queue

namespace stack

variable {T : Type}

/-- Stack of `stack.go` without its mutex. -/
structure Stack (T : Type) where
  items : List T

/-- New of `stack.go`. -/
def New : Stack T := { items := [] }

/-- Push of `stack.go`. -/
def Stack.Push (s : Stack T) (value : T) : Stack T :=
  { items := list.PushBack s.items value }

/-- Pop of `stack.go`.  `none` is a panic: of a nil element, or of the
assertion `elem.Value.(T)` on a stored nil interface, which is evaluated after
the element has been removed. -/
def Stack.Pop [GoType T] (s : Stack T) : Option ((T × Option String) × Stack T) :=
  if s.items.length = 0 then some ((default, some "stack is empty"), s)
  else
    match list.Back s.items with
    | none => none
    | some elem =>
      let items1 := list.Remove s.items elem
      match typeAssert elem.Value with
      | none => none
      | some v => some ((v, none), { items := items1 })

/-- Peek of `stack.go`.  `none` is a panic: of a nil element, or of the
assertion `Value.(T)` on a stored nil interface. -/
def Stack.Peek [GoType T] (s : Stack T) : Option ((T × Option String) × Stack T) :=
  if s.items.length = 0 then some ((default, some "stack is empty"), s)
  else
    match list.Back s.items with
    | none => none
    | some elem =>
      match typeAssert elem.Value with
      | none => none
      | some v => some ((v, none), s)

/-- Len of `stack.go`. -/
def Stack.Len (s : Stack T) : Nat := s.items.length

/-- Push every value of a list, in order. -/
def pushAll (s : Stack T) : List T → Stack T
  | [] => s
  | v :: rest => pushAll (s.Push v) rest

/-- Exactly `n` calls of `Pop`, collecting what each returned. -/
def popN [GoType T] : Nat → Stack T → Option (List (T × Option String) × Stack T)
  | 0, s => some ([], s)
  | n + 1, s =>
    match s.Pop with
    | none => none
    | some (r, s1) =>
      match popN n s1 with
      | none => none
      | some (rs, s2) => some (r :: rs, s2)

end stack

namespace deque

variable {T : Type}

/-- Deque of `deque.go` without its mutex. -/
structure Deque (T : Type) where
  items : List T

/-- New of `deque.go`. -/
def New : Deque T := { items := [] }

/-- PushFront of `deque.go`. -/
def Deque.PushFront (d : Deque T) (value : T) : Deque T :=
  { items := list.PushFront d.items value }

/-- PushBack of `deque.go`. -/
def Deque.PushBack (d : Deque T) (value : T) : Deque T :=
  { items := list.PushBack d.items value }

/-- PopFront of `deque.go`.  `none` is a panic: of a nil element, or of the
assertion `element.Value.(T)` on a stored nil interface, which is evaluated
after the element has been removed. -/
def Deque.PopFront [GoType T] (d : Deque T) : Option ((T × Option String) × Deque T) :=
  if d.items.length = 0 then some ((default, some "deque is empty"), d)
  else
    match list.Front d.items with
    | none => none
    | some element =>
      let items1 := list.Remove d.items element
      match typeAssert element.Value with
      | none => none
      | some v => some ((v, none), { items := items1 })

/-- PopBack of `deque.go`.  `none` is a panic: of a nil element, or of the
assertion `element.Value.(T)` on a stored nil interface, which is evaluated
after the element has been removed. -/
def Deque.PopBack [GoType T] (d : Deque T) : Option ((T × Option String) × Deque T) :=
  if d.items.length = 0 then some ((default, some "deque is empty"), d)
  else
    match list.Back d.items with
    | none => none
    | some element =>
      let items1 := list.Remove d.items element
      match typeAssert element.Value with
      | none => none
      | some v => some ((v, none), { items := items1 })

/-- PeekFront of `deque.go`.  `none` is a panic: of a nil element, or of the
assertion `Value.(T)` on a stored nil interface. -/
def Deque.PeekFront [GoType T] (d : Deque T) : Option ((T × Option String) × Deque T) :=
  if d.items.length = 0 then some ((default, some "deque is empty"), d)
  else
    match list.Front d.items with
    | none => none
    | some element =>
      match typeAssert element.Value with
      | none => none
      | some v => some ((v, none), d)

/-- PeekBack of `deque.go`.  `none` is a panic: of a nil element, or of the
assertion `Value.(T)` on a stored nil interface. -/
def Deque.PeekBack [GoType T] (d : Deque T) : Option ((T × Option String) × Deque T) :=
  if d.items.length = 0 then some ((default, some "deque is empty"), d)
  else
    match list.Back d.items with
    | none => none
    | some element =>
      match typeAssert element.Value with
      | none => none
      | some v => some ((v, none), d)

/-- Len of `deque.go`. -/
def Deque.Len (d : Deque T) : Nat := d.items.length

/-- PushFront every value of a list, in order. -/
def pushFrontAll (d : Deque T) : List T → Deque T
  | [] => d
  | v :: rest => pushFrontAll (d.PushFront v) rest

/-- PushBack every value of a list, in order. -/
def pushBackAll (d : Deque T) : List T → Deque T
  | [] => d
  | v :: rest => pushBackAll (d.PushBack v) rest

/-- Exactly `n` calls of `PopFront`, collecting what each returned. -/
def popFrontN [GoType T] : Nat → Deque T → Option (List (T × Option String) × Deque T)
  | 0, d => some ([], d)
  | n + 1, d =>
    match d.PopFront with
    | none => none
    | some (r, d1) =>
      match popFrontN n d1 with
      | none => none
      | some (rs, d2) => some (r :: rs, d2)

/-- Exactly `n` calls of `PopBack`, collecting what each returned. -/
def popBackN [GoType T] : Nat → Deque T → Option (List (T × Option String) × Deque T)
  | 0, d => some ([], d)
  | n + 1, d =>
    match d.PopBack with
    | none => none
    | some (r, d1) =>
      match popBackN n d1 with
      | none => none
      | some (rs, d2) => some (r :: rs, d2)

end deque

section heaporder

variable {α : Type}

/-- Heap order of the slots below `n`: no child is ranked before its parent. -/
def HeapBelow (lt : α → α → Bool) (l : List α) (n : Nat) : Prop :=
  ∀ k a b, 0 < k → k < n → l[k]? = some a → l[(k - 1) / 2]? = some b → lt a b = false

/-- The list `l1` is `l` with the slots `i` and `j` exchanged. -/
def SwapOf (l l1 : List α) (i j : Nat) : Prop :=
  ∀ k, l1[k]? = if k = j then l[i]? else if k = i then l[j]? else l[k]?

/-- Loop invariant of the sift-up at slot `j`. -/
def UpInv (lt : α → α → Bool) (l : List α) (j n : Nat) : Prop :=
  (∀ k a b, 0 < k → k < n → k ≠ j → l[k]? = some a → l[(k - 1) / 2]? = some b → lt a b = false) ∧
  (∀ c a b, 0 < j → 0 < c → c < n → (c - 1) / 2 = j →
    l[c]? = some a → l[(j - 1) / 2]? = some b → lt a b = false)

/-- Loop invariant of the sift-down at slot `i`. -/
def DownInv (lt : α → α → Bool) (l : List α) (i n : Nat) : Prop :=
  (∀ k a b, 0 < k → k < n → (k - 1) / 2 ≠ i →
    l[k]? = some a → l[(k - 1) / 2]? = some b → lt a b = false) ∧
  (∀ c a b, 0 < i → 0 < c → c < n → (c - 1) / 2 = i →
    l[c]? = some a → l[(i - 1) / 2]? = some b → lt a b = false)

/-- What the heap proofs use of a strict weak order. -/
structure WeakOrd (lt : α → α → Bool) : Prop where
  asymm : ∀ a b, lt a b = true → lt b a = false
  negtrans : ∀ a b c, lt a b = false → lt b c = false → lt a c = false

end heaporder

namespace priorityqueue

variable {T : Type}

/-- The exported fields of every slot, in slot order. -/
def PriorityQueue.keys (pq : PriorityQueue T) : List (T × Int) := pq.items.map Item.key

/-- A comparator seen as a relation on the exported fields. -/
def keyLt (cmp : Comparator T) : T × Int → T × Int → Bool :=
  fun x y => cmp ⟨x.1, x.2, 0⟩ ⟨y.1, y.2, 0⟩

/-- The whole slice is in heap order for the comparator of the queue. -/
def PriorityQueue.IsHeap (pq : PriorityQueue T) : Prop :=
  HeapBelow (keyLt pq.comparator) pq.keys pq.items.length

/-- The four pairs of the first table test, priorities 5, 1, 0, 3. -/
def testPairs : List (Nat × Int) := [(5, 5), (1, 1), (0, 0), (3, 3)]

/-- The queue after `PushItem(5, 5)` and `PushItem(1, 1)` with smallest first. -/
def twoItems : PriorityQueue Nat :=
  { items := [⟨1, 1, 0⟩, ⟨5, 5, 1⟩], comparator := minFirst }

/-- Three values pushed in the order A, B, C, all with priority 1. -/
def tiedPairs : List (String × Int) := [("A", 1), ("B", 1), ("C", 1)]

end priorityqueue

/-- One call on a sequence container: add a value, remove, peek, or ask the
length. -/
inductive SeqOp (T : Type) where
  | push (value : T)
  | pop
  | peek
  | len
deriving DecidableEq

/-- What a call on a sequence container returns: nothing, a value with an
error, or a length. -/
inductive SeqOut (T : Type) where
  | unit
  | result (r : T × Option String)
  | count (n : Nat)
deriving DecidableEq

/-- The same return with the message of its error, when it has one, replaced
by `msg`. -/
def SeqOut.relabel {T : Type} (msg : String) : SeqOut T → SeqOut T
  | .result (v, some _) => .result (v, some msg)
  | o => o

/-- The call adds a nil interface value to the container. -/
def SeqOp.addsNil {T : Type} [GoType T] : SeqOp T → Bool
  | .push v => GoType.isNilInterface v
  | _ => false

/-- Calls on a container of `int`: two additions, a peek, a removal, the
length, and two more removals, the last one on the empty container. -/
def demoCalls : List (SeqOp Nat) :=
  [.push 10, .push 20, .peek, .pop, .len, .pop, .pop]

namespace queue

variable {T : Type}

/-- One call on a queue: `Enqueue`, `Dequeue`, `Peek` or `Len`. -/
def Queue.call [GoType T] (q : Queue T) : SeqOp T → Option (SeqOut T × Queue T)
  | .push v => some (.unit, q.Enqueue v)
  | .pop =>
    match q.Dequeue with
    | none => none
    | some (r, q1) => some (.result r, q1)
  | .peek =>
    match q.Peek with
    | none => none
    | some (r, q1) => some (.result r, q1)
  | .len => some (.count q.Len, q)

/-- A sequence of calls on a queue, with what each returned. -/
def Queue.run [GoType T] (q : Queue T) : List (SeqOp T) → Option (List (SeqOut T) × Queue T)
  | [] => some ([], q)
  | op :: rest =>
    match q.call op with
    | none => none
    | some (o, q1) =>
      match q1.run rest with
      | none => none
      | some (os, q2) => some (o :: os, q2)

end queue

namespace stack

variable {T : Type}

/-- One call on a stack: `Push`, `Pop`, `Peek` or `Len`. -/
def Stack.call [GoType T] (s : Stack T) : SeqOp T → Option (SeqOut T × Stack T)
  | .push v => some (.unit, s.Push v)
  | .pop =>
    match s.Pop with
    | none => none
    | some (r, s1) => some (.result r, s1)
  | .peek =>
    match s.Peek with
    | none => none
    | some (r, s1) => some (.result r, s1)
  | .len => some (.count s.Len, s)

/-- A sequence of calls on a stack, with what each returned. -/
def Stack.run [GoType T] (s : Stack T) : List (SeqOp T) → Option (List (SeqOut T) × Stack T)
  | [] => some ([], s)
  | op :: rest =>
    match s.call op with
    | none => none
    | some (o, s1) =>
      match s1.run rest with
      | none => none
      | some (os, s2) => some (o :: os, s2)

end stack

namespace deque

variable {T : Type}

/-- One call on a deque used as a queue: `PushBack`, `PopFront`, `PeekFront`
or `Len`. -/
def Deque.callFifo [GoType T] (d : Deque T) : SeqOp T → Option (SeqOut T × Deque T)
  | .push v => some (.unit, d.PushBack v)
  | .pop =>
    match d.PopFront with
    | none => none
    | some (r, d1) => some (.result r, d1)
  | .peek =>
    match d.PeekFront with
    | none => none
    | some (r, d1) => some (.result r, d1)
  | .len => some (.count d.Len, d)

/-- A sequence of calls on a deque used as a queue. -/
def Deque.runFifo [GoType T] (d : Deque T) :
    List (SeqOp T) → Option (List (SeqOut T) × Deque T)
  | [] => some ([], d)
  | op :: rest =>
    match d.callFifo op with
    | none => none
    | some (o, d1) =>
      match d1.runFifo rest with
      | none => none
      | some (os, d2) => some (o :: os, d2)

/-- One call on a deque used as a stack: `PushBack`, `PopBack`, `PeekBack` or
`Len`. -/
def Deque.callLifo [GoType T] (d : Deque T) : SeqOp T → Option (SeqOut T × Deque T)
  | .push v => some (.unit, d.PushBack v)
  | .pop =>
    match d.PopBack with
    | none => none
    | some (r, d1) => some (.result r, d1)
  | .peek =>
    match d.PeekBack with
    | none => none
    | some (r, d1) => some (.result r, d1)
  | .len => some (.count d.Len, d)

/-- A sequence of calls on a deque used as a stack. -/
def Deque.runLifo [GoType T] (d : Deque T) :
    List (SeqOp T) → Option (List (SeqOut T) × Deque T)
  | [] => some ([], d)
  | op :: rest =>
    match d.callLifo op with
    | none => none
    | some (o, d1) =>
      match d1.runLifo rest with
      | none => none
      | some (os, d2) => some (o :: os, d2)

end deque

namespace priorityqueue

variable {T : Type}

/-- Position bookkeeping: every slot holds an item whose `index` field is the
position of the slot. -/
def PriorityQueue.IndexOK (pq : PriorityQueue T) : Prop :=
  ∀ (i : Nat) (a : Item T), pq.items[i]? = some a → a.index = i

end priorityqueue

/-! ## Theorems -/

section heaporder

variable {α : Type}

theorem SwapOf.length_eq {l l1 : List α} {i j : Nat} (h : SwapOf l l1 i j)
    (hi : i < l.length) (hj : j < l.length) : l1.length = l.length := by
  apply Nat.le_antisymm
  · by_contra hlt
    have hk := h l.length
    have : l.length < l1.length := by omega
    rw [List.getElem?_eq_getElem this] at hk
    have h1 : l.length ≠ j := by omega
    have h2 : l.length ≠ i := by omega
    simp [h1, h2] at hk
  · by_contra hlt
    have hk := h l1.length
    simp at hk
    split at hk
    · rw [List.getElem?_eq_getElem hi] at hk; simp at hk
    · split at hk
      · rw [List.getElem?_eq_getElem hj] at hk; simp at hk
      · have := List.getElem?_eq_none_iff.mp hk.symm
        omega

theorem SwapOf.eq_set {l l1 : List α} {i j : Nat} (h : SwapOf l l1 i j)
    (hi : i < l.length) (hj : j < l.length) : l1 = (l.set i l[j]).set j l[i] := by
  apply List.ext_getElem?
  intro k
  rw [h k]
  by_cases hkj : k = j
  · subst hkj; simp [hi, hj]
  · by_cases hki : k = i
    · subst hki; simp [hkj, hi, hj, Ne.symm hkj]
    · simp [hkj, hki, Ne.symm hkj, Ne.symm hki]

theorem set_set_perm (l : List α) (i j : Nat) (hi : i < l.length) (hj : j < l.length) :
    ((l.set i l[j]).set j l[i]).Perm l := by
  classical
  rw [List.perm_iff_count]
  intro x
  rw [List.count_set _ _ _ _ (by simpa using hj), List.count_set _ _ _ _ hi]
  have h1 : 0 < l.count l[i] := List.count_pos_iff.mpr (List.getElem_mem hi)
  have h2 : 0 < l.count l[j] := List.count_pos_iff.mpr (List.getElem_mem hj)
  by_cases hij : i = j
  · subst hij
    simp
    by_cases hx : l[i] = x
    · subst hx; simp
    · simp [hx]
  · simp [List.getElem_set, hij]
    by_cases hx : l[i] = x <;> by_cases hy : l[j] = x
    · simp [hx, hy]; subst hx; omega
    · simp [hx, hy]; subst hx; omega
    · simp [hx, hy]
    · simp [hx, hy]

theorem SwapOf.perm {l l1 : List α} {i j : Nat} (h : SwapOf l l1 i j)
    (hi : i < l.length) (hj : j < l.length) : l1.Perm l := by
  rw [h.eq_set hi hj]
  exact set_set_perm l i j hi hj

theorem SwapOf.at_right {l l1 : List α} {i j : Nat} (h : SwapOf l l1 i j) : l1[j]? = l[i]? := by
  have := h j
  simpa using this

theorem SwapOf.at_left {l l1 : List α} {i j : Nat} (h : SwapOf l l1 i j) : l1[i]? = l[j]? := by
  have := h i
  by_cases hij : i = j
  · subst hij; simpa using this
  · simpa [hij] using this

theorem SwapOf.at_other {l l1 : List α} {i j : Nat} (h : SwapOf l l1 i j) (k : Nat)
    (hi : k ≠ i) (hj : k ≠ j) : l1[k]? = l[k]? := by
  have := h k
  simpa [hi, hj] using this

theorem WeakOrd.irrefl {lt : α → α → Bool} (ho : WeakOrd lt) (a : α) : lt a a = false := by
  cases h : lt a a
  · rfl
  · have := ho.asymm a a h
    rw [h] at this
    exact this

theorem up_step {lt : α → α → Bool} (ho : WeakOrd lt) {l l1 : List α} {j n : Nat} {a b : α}
    (hs : SwapOf l l1 ((j - 1) / 2) j) (hj0 : 0 < j)
    (ha : l[j]? = some a) (hb : l[(j - 1) / 2]? = some b) (hlt : lt a b = true)
    (hinv : UpInv lt l j n) : UpInv lt l1 ((j - 1) / 2) n := by
  have hij : (j - 1) / 2 < j := by omega
  have hba : lt b a = false := ho.asymm a b hlt
  constructor
  · intro k x y hk0 hkn hki hx hy
    by_cases hkj : k = j
    · subst hkj
      rw [hs.at_right, hb] at hx
      rw [hs.at_left, ha] at hy
      cases hx; cases hy
      exact hba
    · rw [hs.at_other k hki hkj] at hx
      by_cases hpj : (k - 1) / 2 = j
      · rw [hpj, hs.at_right, hb] at hy
        cases hy
        exact hinv.2 k _ _ hj0 hk0 hkn hpj hx hb
      · by_cases hpi : (k - 1) / 2 = (j - 1) / 2
        · rw [hpi, hs.at_left, ha] at hy
          cases hy
          have h1 : lt x b = false := hinv.1 k x b hk0 hkn hkj hx (hpi ▸ hb)
          exact ho.negtrans _ _ _ h1 hba
        · rw [hs.at_other _ hpi hpj] at hy
          exact hinv.1 k x y hk0 hkn hkj hx hy
  · intro c x y hi0 hc0 hcn hpc hx hy
    have hpp : ((j - 1) / 2 - 1) / 2 < (j - 1) / 2 := by omega
    rw [hs.at_other _ (by omega) (by omega)] at hy
    have hby : lt b y = false := hinv.1 _ b y hi0 (by omega) (by omega) hb hy
    by_cases hcj : c = j
    · subst hcj
      rw [hs.at_right, hb] at hx
      cases hx
      exact hby
    · rw [hs.at_other c (by omega) hcj] at hx
      have h1 : lt x b = false := hinv.1 c x b hc0 hcn hcj hx (hpc ▸ hb)
      exact ho.negtrans x b y h1 hby

theorem up_done {lt : α → α → Bool} {l : List α} {j n : Nat}
    (hinv : UpInv lt l j n)
    (hj : j = 0 ∨ ∀ a b, l[j]? = some a → l[(j - 1) / 2]? = some b → lt a b = false) :
    HeapBelow lt l n := by
  intro k a b hk0 hkn ha hb
  by_cases hkj : k = j
  · subst hkj
    rcases hj with h | h
    · omega
    · exact h a b ha hb
  · exact hinv.1 k a b hk0 hkn hkj ha hb

theorem down_step {lt : α → α → Bool} (ho : WeakOrd lt) {l l1 : List α} {i j n : Nat} {a b : α}
    (hs : SwapOf l l1 i j) (hj0 : 0 < j) (hjn : j < n) (hp : (j - 1) / 2 = i)
    (ha : l[j]? = some a) (hb : l[i]? = some b) (hlt : lt a b = true)
    (hmin : ∀ c x, 0 < c → c < n → (c - 1) / 2 = i → l[c]? = some x → lt x a = false)
    (hinv : DownInv lt l i n) : DownInv lt l1 j n := by
  have hij : i < j := by omega
  have hba : lt b a = false := ho.asymm a b hlt
  constructor
  · intro k x y hk0 hkn hpk hx hy
    by_cases hkj : k = j
    · subst hkj
      rw [hs.at_right, hb] at hx
      rw [hp, hs.at_left, ha] at hy
      cases hx; cases hy
      exact hba
    · by_cases hki : k = i
      · subst hki
        rw [hs.at_left, ha] at hx
        cases hx
        rw [hs.at_other _ (by omega) (by omega)] at hy
        exact hinv.2 j _ _ hk0 hj0 hjn hp ha hy
      · rw [hs.at_other k hki hkj] at hx
        by_cases hpi : (k - 1) / 2 = i
        · rw [hpi, hs.at_left, ha] at hy
          cases hy
          exact hmin k _ hk0 hkn hpi hx
        · rw [hs.at_other _ hpi hpk] at hy
          exact hinv.1 k x y hk0 hkn hpi hx hy
  · intro c x y _ hc0 hcn hpc hx hy
    rw [hs.at_other c (by omega) (by omega)] at hx
    rw [hp, hs.at_left, ha] at hy
    cases hy
    exact hinv.1 c _ _ hc0 hcn (by omega) hx (hpc ▸ ha)

theorem down_done {lt : α → α → Bool} {l : List α} {i n : Nat}
    (hinv : DownInv lt l i n)
    (hc : ∀ c x b, 0 < c → c < n → (c - 1) / 2 = i → l[c]? = some x → l[i]? = some b →
      lt x b = false) :
    HeapBelow lt l n := by
  intro k a b hk0 hkn ha hb
  by_cases hpi : (k - 1) / 2 = i
  · exact hc k a b hk0 hkn hpi ha (hpi ▸ hb)
  · exact hinv.1 k a b hk0 hkn hpi ha hb

theorem HeapBelow.root_first {lt : α → α → Bool} (ho : WeakOrd lt) {l : List α} {n : Nat}
    (hn : n ≤ l.length) (h : HeapBelow lt l n) :
    ∀ k x r, k < n → l[k]? = some x → l[0]? = some r → lt x r = false := by
  intro k
  induction k using Nat.strong_induction_on with
  | _ k ih =>
    intro x r hkn hx hr
    by_cases hk0 : k = 0
    · subst hk0
      rw [hx] at hr
      cases hr
      exact ho.irrefl x
    · have hp : (k - 1) / 2 < k := by omega
      have hpl : (k - 1) / 2 < l.length := by omega
      have hy : l[(k - 1) / 2]? = some l[(k - 1) / 2] := List.getElem?_eq_getElem hpl
      have h1 := h k x _ (by omega) hkn hx hy
      have h2 := ih _ hp _ r (by omega) hy hr
      exact ho.negtrans _ _ _ h1 h2

end heaporder

namespace priorityqueue

variable {T : Type}

theorem keys_getElem? (pq : PriorityQueue T) (k : Nat) :
    pq.keys[k]? = (pq.items[k]?).map Item.key := by
  simp [PriorityQueue.keys]

theorem keys_length (pq : PriorityQueue T) : pq.keys.length = pq.items.length := by
  simp [PriorityQueue.keys]

theorem Swap_spec (pq : PriorityQueue T) (i j : Nat)
    (hi : i < pq.items.length) (hj : j < pq.items.length) :
    ∃ pq1, pq.Swap i j = some pq1 ∧ pq1.comparator = pq.comparator ∧
      ∀ k, pq1.items[k]? =
        if k = j then (pq.items[i]?).map (fun a => { a with index := j })
        else if k = i then (pq.items[j]?).map (fun b => { b with index := i })
        else pq.items[k]? := by
  unfold PriorityQueue.Swap
  rw [List.getElem?_eq_getElem hi, List.getElem?_eq_getElem hj]
  simp only
  have h1 : i < ((pq.items.set i pq.items[j]).set j pq.items[i]).length := by simpa using hi
  rw [List.getElem?_eq_getElem h1]
  simp only
  have h2 : j < ((((pq.items.set i pq.items[j]).set j pq.items[i])).set i
      { ((pq.items.set i pq.items[j]).set j pq.items[i])[i] with index := i }).length := by
    simpa using hj
  rw [List.getElem?_eq_getElem h2]
  refine ⟨_, rfl, rfl, ?_⟩
  intro k
  by_cases hkj : k = j
  · subst hkj
    by_cases hki : k = i
    · subst hki; simp [hi, List.getElem_set]
    · simp [hi, hj, List.getElem_set, hki, Ne.symm hki]
  · by_cases hki : k = i
    · subst hki
      simp [hi, hj, List.getElem_set, hkj, Ne.symm hkj, List.getElem?_set]
    · simp [hkj, hki, Ne.symm hkj, Ne.symm hki, List.getElem?_set]

theorem key_map_index (o : Option (Item T)) (n : Nat) :
    Option.map Item.key (Option.map (fun a : Item T => { a with index := n }) o) =
      Option.map Item.key o := by
  cases o <;> rfl

theorem Swap_keys {pq pq1 : PriorityQueue T} {i j : Nat}
    (h : ∀ k, pq1.items[k]? =
        if k = j then (pq.items[i]?).map (fun a => { a with index := j })
        else if k = i then (pq.items[j]?).map (fun b => { b with index := i })
        else pq.items[k]?) :
    SwapOf pq.keys pq1.keys i j := by
  intro k
  rw [keys_getElem?, keys_getElem?, keys_getElem?, keys_getElem?, h k]
  by_cases hkj : k = j
  · rw [if_pos hkj, if_pos hkj, key_map_index]
  · by_cases hki : k = i
    · rw [if_neg hkj, if_neg hkj, if_pos hki, if_pos hki, key_map_index]
    · rw [if_neg hkj, if_neg hkj, if_neg hki, if_neg hki]

theorem Less_spec (pq : PriorityQueue T) (i j : Nat)
    (hi : i < pq.items.length) (hj : j < pq.items.length) :
    pq.Less i j = some (pq.comparator pq.items[i] pq.items[j]) := by
  unfold PriorityQueue.Less
  rw [List.getElem?_eq_getElem hi, List.getElem?_eq_getElem hj]

theorem Less_some {pq : PriorityQueue T} {i j : Nat} {a b : Item T}
    (ha : pq.items[i]? = some a) (hb : pq.items[j]? = some b) :
    pq.Less i j = some (pq.comparator a b) := by
  unfold PriorityQueue.Less
  rw [ha, hb]

theorem keyLt_key {cmp : Comparator T} (ho : StrictWeakOrder cmp) (x y : Item T) :
    keyLt cmp x.key y.key = cmp x y :=
  ho.exported _ _ _ _ rfl rfl

theorem StrictWeakOrder.asymm {cmp : Comparator T} (ho : StrictWeakOrder cmp) (a b : Item T)
    (h : cmp a b = true) : cmp b a = false := by
  cases h1 : cmp b a
  · rfl
  · have := ho.trans a b a h h1
    rw [ho.irrefl a] at this
    cases this

theorem StrictWeakOrder.negtrans {cmp : Comparator T} (ho : StrictWeakOrder cmp) (a b c : Item T)
    (h1 : cmp a b = false) (h2 : cmp b c = false) : cmp a c = false := by
  cases hac : cmp a c
  · rfl
  · exfalso
    cases hba : cmp b a
    · cases hcb : cmp c b
      · have := (ho.incomp a b c h1 hba h2 hcb).1
        rw [hac] at this
        cases this
      · have := ho.trans a c b hac hcb
        rw [h1] at this
        cases this
    · have := ho.trans b a c hba hac
      rw [h2] at this
      cases this

theorem StrictWeakOrder.weakOrd {cmp : Comparator T} (ho : StrictWeakOrder cmp) :
    WeakOrd (keyLt cmp) where
  asymm := fun _ _ h => ho.asymm _ _ h
  negtrans := fun _ _ _ h1 h2 => ho.negtrans _ _ _ h1 h2

theorem Swap_length {pq pq1 : PriorityQueue T} {i j : Nat}
    (hi : i < pq.items.length) (hj : j < pq.items.length)
    (h : SwapOf pq.keys pq1.keys i j) : pq1.items.length = pq.items.length := by
  have := h.length_eq (by rw [keys_length]; exact hi) (by rw [keys_length]; exact hj)
  rwa [keys_length, keys_length] at this

theorem Swap_perm {pq pq1 : PriorityQueue T} {i j : Nat}
    (hi : i < pq.items.length) (hj : j < pq.items.length)
    (h : SwapOf pq.keys pq1.keys i j) : pq1.keys.Perm pq.keys :=
  h.perm (by rw [keys_length]; exact hi) (by rw [keys_length]; exact hj)

theorem upLoop_some : ∀ (fuel : Nat) (pq : PriorityQueue T) (j : Nat), j < pq.items.length →
    ∃ pq1, heap.upLoop fuel pq j = some pq1 ∧ pq1.comparator = pq.comparator ∧
      pq1.keys.Perm pq.keys := by
  intro fuel
  induction fuel with
  | zero => intro pq j _; exact ⟨pq, rfl, rfl, List.Perm.refl _⟩
  | succ f ih =>
    intro pq j hj
    rw [heap.upLoop]
    by_cases hij : (j - 1) / 2 = j
    · rw [if_pos hij]; exact ⟨pq, rfl, rfl, List.Perm.refl _⟩
    · rw [if_neg hij]
      have hi : (j - 1) / 2 < pq.items.length := by omega
      rw [Less_some (List.getElem?_eq_getElem hj) (List.getElem?_eq_getElem hi)]
      cases hc : pq.comparator pq.items[j] pq.items[(j - 1) / 2]
      · exact ⟨pq, rfl, rfl, List.Perm.refl _⟩
      · obtain ⟨pq1, h1, h2, h3⟩ := Swap_spec pq _ j hi hj
        rw [h1]
        simp only
        have hsw := Swap_keys h3
        have hlen := Swap_length hi hj hsw
        obtain ⟨pq2, h4, h5, h6⟩ := ih pq1 ((j - 1) / 2) (by omega)
        exact ⟨pq2, h4, h5.trans h2, h6.trans (Swap_perm hi hj hsw)⟩

theorem upLoop_heap {cmp : Comparator T} (ho : StrictWeakOrder cmp) :
    ∀ (fuel : Nat) (pq pq2 : PriorityQueue T) (j : Nat), pq.comparator = cmp → j ≤ fuel →
      j < pq.items.length → UpInv (keyLt cmp) pq.keys j pq.items.length →
      heap.upLoop fuel pq j = some pq2 → HeapBelow (keyLt cmp) pq2.keys pq2.items.length := by
  intro fuel
  induction fuel with
  | zero =>
    intro pq pq2 j _ hjf _ hinv h
    rw [heap.upLoop] at h
    cases h
    exact up_done hinv (Or.inl (by omega))
  | succ f ih =>
    intro pq pq2 j hcmp hjf hj hinv h
    rw [heap.upLoop] at h
    by_cases hij : (j - 1) / 2 = j
    · rw [if_pos hij] at h
      cases h
      exact up_done hinv (Or.inl (by omega))
    · rw [if_neg hij] at h
      have hi : (j - 1) / 2 < pq.items.length := by omega
      have ha := List.getElem?_eq_getElem hj
      have hb := List.getElem?_eq_getElem hi
      have hka : pq.keys[j]? = some pq.items[j].key := by rw [keys_getElem?, ha]; rfl
      have hkb : pq.keys[(j - 1) / 2]? = some pq.items[(j - 1) / 2].key := by
        rw [keys_getElem?, hb]; rfl
      rw [Less_some ha hb, hcmp] at h
      cases hc : cmp pq.items[j] pq.items[(j - 1) / 2]
      · rw [hc] at h
        cases h
        refine up_done hinv (Or.inr ?_)
        intro a b h1 h2
        rw [hka] at h1
        rw [hkb] at h2
        cases h1; cases h2
        rw [keyLt_key ho]
        exact hc
      · rw [hc] at h
        simp only at h
        obtain ⟨pq1, h1, h2, h3⟩ := Swap_spec pq _ j hi hj
        rw [h1] at h
        simp only at h
        have hsw := Swap_keys h3
        have hlen := Swap_length hi hj hsw
        have hlt : keyLt cmp pq.items[j].key pq.items[(j - 1) / 2].key = true := by
          rw [keyLt_key ho]; exact hc
        have hinv1 := up_step ho.weakOrd hsw (by omega) hka hkb hlt hinv
        rw [← hlen] at hinv1
        exact ih pq1 pq2 _ (h2.trans hcmp) (by omega) (by omega) hinv1 h

/-- The child that one iteration of the sift-down picks. -/
theorem down_child (pq : PriorityQueue T) (n i : Nat) (hn : n ≤ pq.items.length) :
    ∃ r, (if 2 * i + 1 + 1 < n then pq.Less (2 * i + 1 + 1) (2 * i + 1) else some false) = some r ∧
      (r = true → 2 * i + 1 + 1 < n) ∧
      (∀ a b, 2 * i + 1 + 1 < n → pq.items[2 * i + 1 + 1]? = some a →
        pq.items[2 * i + 1]? = some b → pq.comparator a b = r) := by
  by_cases h2 : 2 * i + 1 + 1 < n
  · rw [if_pos h2]
    have h1l : 2 * i + 1 < pq.items.length := by omega
    have h2l : 2 * i + 1 + 1 < pq.items.length := by omega
    refine ⟨_, Less_some (List.getElem?_eq_getElem h2l) (List.getElem?_eq_getElem h1l), ?_, ?_⟩
    · intro _; exact h2
    · intro a b _ ha hb
      rw [List.getElem?_eq_getElem h2l] at ha
      rw [List.getElem?_eq_getElem h1l] at hb
      cases ha; cases hb; rfl
  · rw [if_neg h2]
    exact ⟨false, rfl, fun h => Bool.noConfusion h, fun _ _ h' => absurd h' h2⟩

theorem downLoop_some (n : Nat) : ∀ (fuel : Nat) (pq : PriorityQueue T) (i : Nat),
    n ≤ pq.items.length →
    ∃ pq1, heap.downLoop n fuel pq i = some pq1 ∧ pq1.comparator = pq.comparator ∧
      pq1.keys.Perm pq.keys ∧ ∀ k, n ≤ k → pq1.items[k]? = pq.items[k]? := by
  intro fuel
  induction fuel with
  | zero => intro pq i _; exact ⟨pq, rfl, rfl, List.Perm.refl _, fun _ _ => rfl⟩
  | succ f ih =>
    intro pq i hn
    rw [heap.downLoop]
    by_cases hj1 : n ≤ 2 * i + 1
    · rw [if_pos hj1]; exact ⟨pq, rfl, rfl, List.Perm.refl _, fun _ _ => rfl⟩
    · rw [if_neg hj1]
      obtain ⟨r, hr, hr1, _⟩ := down_child pq n i hn
      rw [hr]
      simp only
      have hjn : (if r = true then 2 * i + 1 + 1 else 2 * i + 1) < n := by
        split
        · rename_i h; exact hr1 h
        · omega
      have hij : i < (if r = true then 2 * i + 1 + 1 else 2 * i + 1) := by
        split <;> omega
      generalize (if r = true then 2 * i + 1 + 1 else 2 * i + 1) = j at hjn hij ⊢
      have hj : j < pq.items.length := by omega
      have hi : i < pq.items.length := by omega
      rw [Less_some (List.getElem?_eq_getElem hj) (List.getElem?_eq_getElem hi)]
      cases hc : pq.comparator pq.items[j] pq.items[i]
      · exact ⟨pq, rfl, rfl, List.Perm.refl _, fun _ _ => rfl⟩
      · obtain ⟨pq1, h1, h2, h3⟩ := Swap_spec pq i j hi hj
        rw [h1]
        simp only
        have hsw := Swap_keys h3
        have hlen := Swap_length hi hj hsw
        obtain ⟨pq2, h4, h5, h6, h7⟩ := ih pq1 j (by omega)
        refine ⟨pq2, h4, h5.trans h2, h6.trans (Swap_perm hi hj hsw), ?_⟩
        intro k hk
        rw [h7 k hk, h3 k, if_neg (by omega), if_neg (by omega)]

theorem downLoop_heap {cmp : Comparator T} (ho : StrictWeakOrder cmp) (n : Nat) :
    ∀ (fuel : Nat) (pq pq2 : PriorityQueue T) (i : Nat), pq.comparator = cmp → n - i ≤ fuel →
      n ≤ pq.items.length → DownInv (keyLt cmp) pq.keys i n →
      heap.downLoop n fuel pq i = some pq2 → HeapBelow (keyLt cmp) pq2.keys n := by
  intro fuel
  induction fuel with
  | zero =>
    intro pq pq2 i _ hf _ hinv h
    rw [heap.downLoop] at h
    cases h
    refine down_done hinv ?_
    intro c x b hc0 hcn hpc _ _
    omega
  | succ f ih =>
    intro pq pq2 i hcmp hf hn hinv h
    rw [heap.downLoop] at h
    by_cases hj1 : n ≤ 2 * i + 1
    · rw [if_pos hj1] at h
      cases h
      refine down_done hinv ?_
      intro c x b hc0 hcn hpc _ _
      omega
    · rw [if_neg hj1] at h
      obtain ⟨r, hr, hr1, hr2⟩ := down_child pq n i hn
      rw [hr] at h
      simp only at h
      have hjn : (if r = true then 2 * i + 1 + 1 else 2 * i + 1) < n := by
        split
        · rename_i h'; exact hr1 h'
        · omega
      have hij : i < (if r = true then 2 * i + 1 + 1 else 2 * i + 1) := by
        split <;> omega
      have hpj : ((if r = true then 2 * i + 1 + 1 else 2 * i + 1) - 1) / 2 = i := by
        split <;> omega
      have hmin : ∀ c x y, 0 < c → c < n → (c - 1) / 2 = i → pq.items[c]? = some x →
          pq.items[(if r = true then 2 * i + 1 + 1 else 2 * i + 1)]? = some y → cmp x y = false := by
        intro c x y hc0 hcn hpc hx hy
        have hcc : c = 2 * i + 1 ∨ c = 2 * i + 1 + 1 := by omega
        cases r
        · simp only [Bool.false_eq_true, if_false] at hy
          rcases hcc with hcc | hcc
          · subst hcc
            rw [hx] at hy; cases hy
            exact ho.irrefl x
          · subst hcc
            have := hr2 x y hcn hx hy
            rw [hcmp] at this
            exact this
        · simp only [if_true] at hy
          rcases hcc with hcc | hcc
          · subst hcc
            have := hr2 y x (hr1 rfl) hy hx
            rw [hcmp] at this
            exact ho.asymm _ _ this
          · subst hcc
            rw [hx] at hy; cases hy
            exact ho.irrefl x
      generalize (if r = true then 2 * i + 1 + 1 else 2 * i + 1) = j at hjn hij hpj hmin h
      have hj : j < pq.items.length := by omega
      have hi : i < pq.items.length := by omega
      have ha := List.getElem?_eq_getElem hj
      have hb := List.getElem?_eq_getElem hi
      have hka : pq.keys[j]? = some pq.items[j].key := by rw [keys_getElem?, ha]; rfl
      have hkb : pq.keys[i]? = some pq.items[i].key := by rw [keys_getElem?, hb]; rfl
      have hkmin : ∀ c x, 0 < c → c < n → (c - 1) / 2 = i → pq.keys[c]? = some x →
          keyLt cmp x pq.items[j].key = false := by
        intro c x hc0 hcn hpc hx
        have hcl : c < pq.items.length := by omega
        rw [keys_getElem?, List.getElem?_eq_getElem hcl] at hx
        cases hx
        rw [keyLt_key ho]
        exact hmin c _ _ hc0 hcn hpc (List.getElem?_eq_getElem hcl) ha
      rw [Less_some ha hb, hcmp] at h
      cases hc : cmp pq.items[j] pq.items[i]
      · rw [hc] at h
        cases h
        refine down_done hinv ?_
        intro c x b hc0 hcn hpc hx hb'
        rw [hkb] at hb'
        cases hb'
        have h1 := hkmin c x hc0 hcn hpc hx
        have h2 : keyLt cmp pq.items[j].key pq.items[i].key = false := by
          rw [keyLt_key ho]; exact hc
        exact ho.weakOrd.negtrans _ _ _ h1 h2
      · rw [hc] at h
        simp only at h
        obtain ⟨pq1, h1, h2, h3⟩ := Swap_spec pq i j hi hj
        rw [h1] at h
        simp only at h
        have hsw := Swap_keys h3
        have hlen := Swap_length hi hj hsw
        have hlt : keyLt cmp pq.items[j].key pq.items[i].key = true := by
          rw [keyLt_key ho]; exact hc
        have hinv1 := down_step ho.weakOrd hsw (by omega) hjn hpj hka hkb hlt hkmin hinv
        exact ih pq1 pq2 j (h2.trans hcmp) (by omega) (by omega) hinv1 h

theorem heapPush_spec (pq : PriorityQueue T) (x : Item T) :
    ∃ pq1, heap.Push pq x = some pq1 ∧ pq1.comparator = pq.comparator ∧
      pq1.keys.Perm (pq.keys ++ [x.key]) ∧
      (∀ cmp, StrictWeakOrder cmp → pq.comparator = cmp →
        HeapBelow (keyLt cmp) pq.keys pq.items.length →
        HeapBelow (keyLt cmp) pq1.keys pq1.items.length) := by
  have hlen : (pq.Push x).items.length = pq.items.length + 1 := by
    simp [PriorityQueue.Push]
  have hkeys : (pq.Push x).keys = pq.keys ++ [x.key] := by
    simp [PriorityQueue.Push, PriorityQueue.keys, Item.key]
  have hj : (pq.Push x).Len - 1 < (pq.Push x).items.length := by
    unfold PriorityQueue.Len; omega
  obtain ⟨pq1, h1, h2, h3⟩ := upLoop_some ((pq.Push x).Len - 1) (pq.Push x) _ hj
  refine ⟨pq1, h1, h2, hkeys ▸ h3, ?_⟩
  intro cmp ho hcmp hheap
  refine upLoop_heap ho _ (pq.Push x) pq1 _ hcmp (Nat.le_refl _) hj ?_ h1
  have hL : (pq.Push x).Len - 1 = pq.items.length := by
    unfold PriorityQueue.Len; omega
  rw [hL, hkeys, hlen]
  constructor
  · intro k a b hk0 hkn hkj ha hb
    have hk : k < pq.keys.length := by rw [keys_length]; omega
    have hp : (k - 1) / 2 < pq.keys.length := by omega
    rw [List.getElem?_append_left hk] at ha
    rw [List.getElem?_append_left hp] at hb
    exact hheap k a b hk0 (by omega) ha hb
  · intro c a b hj0 hc0 hcn hpc _ _
    omega

theorem take_keys_perm {l : List (Item T)} {n : Nat} {it : Item T}
    (hlen : l.length = n + 1) (hit : l[n]? = some it) :
    (l.map Item.key).Perm (it.key :: (l.take n).map Item.key) := by
  have hn : n < l.length := by omega
  have hl : l = l.take n ++ [it] := by
    rw [List.getElem?_eq_getElem hn] at hit
    cases hit
    conv_lhs => rw [← List.take_append_drop n l]
    rw [List.drop_eq_getElem_cons hn, List.drop_eq_nil_of_le (by omega)]
  conv_lhs => rw [hl]
  rw [List.map_append]
  exact List.perm_append_comm

theorem heapPop_spec (pq : PriorityQueue T) (h0 : 0 < pq.items.length) :
    ∃ it0 pq3, pq.items[0]? = some it0 ∧
      heap.Pop pq = some ({ it0 with index := pq.items.length - 1 }, pq3) ∧
      pq3.comparator = pq.comparator ∧
      pq.keys.Perm (it0.key :: pq3.keys) ∧
      (∀ cmp, StrictWeakOrder cmp → pq.comparator = cmp →
        HeapBelow (keyLt cmp) pq.keys pq.items.length →
        HeapBelow (keyLt cmp) pq3.keys pq3.items.length) := by
  have hn : pq.items.length - 1 < pq.items.length := by omega
  obtain ⟨pq1, h1, h2, h3⟩ := Swap_spec pq 0 (pq.items.length - 1) h0 hn
  have hsw := Swap_keys h3
  have hlen1 := Swap_length h0 hn hsw
  obtain ⟨pq2, h4, h5, h6, h7⟩ :=
    downLoop_some (pq.items.length - 1) (pq.items.length - 1 - 0) pq1 0 (by omega)
  have hlen2 : pq2.items.length = pq.items.length := by
    have := h6.length_eq
    rw [keys_length, keys_length] at this
    omega
  have hlast : pq2.items[pq.items.length - 1]? =
      some { pq.items[0] with index := pq.items.length - 1 } := by
    rw [h7 _ (Nat.le_refl _), h3, if_pos rfl, List.getElem?_eq_getElem h0]
    rfl
  refine ⟨pq.items[0], ⟨pq2.items.take (pq.items.length - 1), pq2.comparator⟩,
    List.getElem?_eq_getElem h0, ?_, h5.trans h2, ?_, ?_⟩
  · unfold heap.Pop
    rw [if_neg (by unfold PriorityQueue.Len; omega)]
    simp only [PriorityQueue.Len]
    rw [h1]
    simp only [heap.down]
    rw [h4]
    simp only [PriorityQueue.Pop]
    rw [if_neg (by omega), hlen2, hlast]
  · have hp := take_keys_perm (l := pq2.items) (n := pq.items.length - 1) (by omega) hlast
    exact ((Swap_perm h0 hn hsw).symm.trans h6.symm).trans hp
  · intro cmp ho hcmp hheap
    have hinv : DownInv (keyLt cmp) pq1.keys 0 (pq.items.length - 1) := by
      constructor
      · intro k a b hk0 hkn hpk ha hb
        rw [hsw.at_other k (by omega) (by omega)] at ha
        rw [hsw.at_other _ (by omega) (by omega)] at hb
        exact hheap k a b hk0 (by omega) ha hb
      · intro c a b hi0 _ _ _ _ _
        omega
    have hh := downLoop_heap ho (pq.items.length - 1) _ pq1 pq2 0 (h2.trans hcmp)
      (Nat.le_refl _) (by omega) hinv h4
    intro k a b hk0 hkn ha hb
    simp only [List.length_take] at hkn
    have hk : k < pq.items.length - 1 := by omega
    rw [keys_getElem?] at ha hb
    simp only at ha hb
    rw [List.getElem?_take_of_lt hk] at ha
    rw [List.getElem?_take_of_lt (by omega)] at hb
    rw [← keys_getElem?] at ha hb
    exact hh k a b hk0 hk ha hb

theorem keys_len_of_perm {pq1 : PriorityQueue T} {l : List (T × Int)}
    (h : pq1.keys.Perm l) : pq1.items.length = l.length := by
  rw [← keys_length]; exact h.length_eq

theorem PushItem_spec (pq : PriorityQueue T) (v : T) (p : Int) :
    ∃ pq1, pq.PushItem v p = some pq1 ∧ pq1.comparator = pq.comparator ∧
      pq1.keys.Perm (pq.keys ++ [(v, p)]) ∧ pq1.Len = pq.Len + 1 ∧
      (StrictWeakOrder pq.comparator → pq.IsHeap → pq1.IsHeap) := by
  obtain ⟨pq1, h1, h2, h3, h4⟩ := heapPush_spec pq { Value := v, Priority := p, index := 0 }
  refine ⟨pq1, h1, h2, h3, ?_, ?_⟩
  · have := h3.length_eq
    simp only [keys_length, List.length_append, List.length_singleton] at this
    exact this
  · intro ho hh
    unfold PriorityQueue.IsHeap
    rw [h2]
    exact h4 _ ho rfl hh

theorem PopItem_empty [Inhabited T] (pq : PriorityQueue T) (h : pq.items.length = 0) :
    pq.PopItem = some ((default, some "priority queue is empty"), pq) := by
  unfold PriorityQueue.PopItem
  rw [if_pos h]

theorem PeekItem_empty [Inhabited T] (pq : PriorityQueue T) (h : pq.items.length = 0) :
    pq.PeekItem = some ((default, some "priority queue is empty"), pq) := by
  unfold PriorityQueue.PeekItem
  rw [if_pos h]

theorem PeekItem_spec [Inhabited T] (pq : PriorityQueue T) (h : 0 < pq.items.length) :
    pq.PeekItem = some ((pq.items[0].Value, none), pq) := by
  unfold PriorityQueue.PeekItem
  rw [if_neg (by omega), List.getElem?_eq_getElem h]

theorem PopItem_spec [Inhabited T] (pq : PriorityQueue T) (h : 0 < pq.items.length) :
    ∃ pq1, pq.PopItem = some ((pq.items[0].Value, none), pq1) ∧
      heap.Pop pq = some ({ pq.items[0] with index := pq.items.length - 1 }, pq1) ∧
      pq1.comparator = pq.comparator ∧
      pq.keys.Perm (pq.items[0].key :: pq1.keys) ∧ pq1.Len + 1 = pq.Len ∧
      (StrictWeakOrder pq.comparator → pq.IsHeap → pq1.IsHeap) := by
  obtain ⟨it0, pq1, h1, h2, h3, h4, h5⟩ := heapPop_spec pq h
  rw [List.getElem?_eq_getElem h] at h1
  cases h1
  refine ⟨pq1, ?_, h2, h3, h4, ?_, ?_⟩
  · unfold PriorityQueue.PopItem
    rw [if_neg (by omega), h2]
  · have := h4.length_eq
    simp only [keys_length, List.length_cons] at this
    unfold PriorityQueue.Len
    omega
  · intro ho hh
    unfold PriorityQueue.IsHeap
    rw [h3]
    exact h5 _ ho rfl hh

theorem isHeap_root_first {pq : PriorityQueue T} (ho : StrictWeakOrder pq.comparator)
    (hh : pq.IsHeap) (h : 0 < pq.items.length) :
    ∀ x ∈ pq.items, pq.comparator x pq.items[0] = false := by
  intro x hx
  obtain ⟨k, hk, rfl⟩ := List.getElem_of_mem hx
  rw [← keyLt_key ho]
  refine HeapBelow.root_first ho.weakOrd (Nat.le_of_eq (keys_length pq).symm) hh k _ _ hk ?_ ?_
  · rw [keys_getElem?, List.getElem?_eq_getElem hk]; rfl
  · rw [keys_getElem?, List.getElem?_eq_getElem h]; rfl

/-- The `heap.Init` call in `New` returns the empty slice as it is. -/
theorem heap_Init_New (cmp : Comparator T) :
    heap.Init { items := [], comparator := cmp } = some { items := [], comparator := cmp } := by
  simp [heap.Init, heap.initLoop, PriorityQueue.Len]

theorem New_eq (cmp : Comparator T) : New cmp = { items := [], comparator := cmp } := by
  unfold New
  simp only [heap_Init_New]

theorem New_comparator (cmp : Comparator T) : (New cmp).comparator = cmp := by
  rw [New_eq]

theorem New_isHeap (cmp : Comparator T) : (New cmp).IsHeap := by
  intro k a b _ hk _ _
  simp [New_eq] at hk

theorem call_spec [Inhabited T] (pq : PriorityQueue T) (op : Op T) :
    ∃ r pq1, pq.call op = some (r, pq1) ∧ pq1.comparator = pq.comparator ∧
      (StrictWeakOrder pq.comparator → pq.IsHeap → pq1.IsHeap) := by
  cases op with
  | push v p =>
    obtain ⟨pq1, h1, h2, _, _, h5⟩ := PushItem_spec pq v p
    exact ⟨none, pq1, by simp only [PriorityQueue.call, h1], h2, h5⟩
  | pop =>
    by_cases h : pq.items.length = 0
    · exact ⟨_, pq, by simp only [PriorityQueue.call, PopItem_empty pq h]; rfl, rfl, fun _ hh => hh⟩
    · obtain ⟨pq1, h1, _, h2, _, _, h5⟩ := PopItem_spec pq (by omega)
      exact ⟨_, pq1, by simp only [PriorityQueue.call, h1]; rfl, h2, h5⟩
  | peek =>
    by_cases h : pq.items.length = 0
    · exact ⟨_, pq, by simp only [PriorityQueue.call, PeekItem_empty pq h]; rfl, rfl, fun _ hh => hh⟩
    · exact ⟨_, pq, by simp only [PriorityQueue.call, PeekItem_spec pq (by omega)]; rfl, rfl,
        fun _ hh => hh⟩

theorem run_spec [Inhabited T] : ∀ (ops : List (Op T)) (pq : PriorityQueue T),
    ∃ pq1, pq.run ops = some pq1 ∧ pq1.comparator = pq.comparator ∧
      (StrictWeakOrder pq.comparator → pq.IsHeap → pq1.IsHeap) := by
  intro ops
  induction ops with
  | nil => intro pq; exact ⟨pq, rfl, rfl, fun _ hh => hh⟩
  | cons op rest ih =>
    intro pq
    obtain ⟨r, pq1, h1, h2, h3⟩ := call_spec pq op
    obtain ⟨pq2, h4, h5, h6⟩ := ih pq1
    refine ⟨pq2, ?_, h5.trans h2, ?_⟩
    · simp only [PriorityQueue.run, h1, h4]
    · intro ho hh
      exact h6 (h2 ▸ ho) (h3 ho hh)

theorem upLoop_fuel : ∀ (f1 f2 : Nat) (pq : PriorityQueue T) (j : Nat), j ≤ f1 → j ≤ f2 →
    heap.upLoop f1 pq j = heap.upLoop f2 pq j := by
  intro f1
  induction f1 with
  | zero =>
    intro f2 pq j h1 _
    have hj : j = 0 := by omega
    subst hj
    cases f2 with
    | zero => rfl
    | succ f2 => rw [heap.upLoop, heap.upLoop, if_pos (by omega)]
  | succ f1 ih =>
    intro f2 pq j h1 h2
    cases f2 with
    | zero =>
      have hj : j = 0 := by omega
      subst hj
      rw [heap.upLoop, heap.upLoop, if_pos (by omega)]
    | succ f2 =>
      rw [heap.upLoop, heap.upLoop]
      by_cases hij : (j - 1) / 2 = j
      · rw [if_pos hij, if_pos hij]
      · rw [if_neg hij, if_neg hij]
        cases pq.Less j ((j - 1) / 2) with
        | none => rfl
        | some r =>
          cases r with
          | false => rfl
          | true =>
            cases pq.Swap ((j - 1) / 2) j with
            | none => rfl
            | some pq1 => exact ih f2 pq1 _ (by omega) (by omega)

/-- The sift-up satisfies the equation of the library loop: the iteration
bound in `heap.up` is never reached. -/
theorem up_unfold (pq : PriorityQueue T) (j : Nat) :
    heap.up pq j =
      if (j - 1) / 2 = j then some pq
      else
        match pq.Less j ((j - 1) / 2) with
        | none => none
        | some false => some pq
        | some true =>
          match pq.Swap ((j - 1) / 2) j with
          | none => none
          | some pq1 => heap.up pq1 ((j - 1) / 2) := by
  unfold heap.up
  cases j with
  | zero => rw [heap.upLoop, if_pos (by omega)]
  | succ j =>
    rw [heap.upLoop]
    by_cases hij : (j + 1 - 1) / 2 = j + 1
    · rw [if_pos hij, if_pos hij]
    · rw [if_neg hij, if_neg hij]
      cases pq.Less (j + 1) ((j + 1 - 1) / 2) with
      | none => rfl
      | some r =>
        cases r with
        | false => rfl
        | true =>
          cases pq.Swap ((j + 1 - 1) / 2) (j + 1) with
          | none => rfl
          | some pq1 => exact upLoop_fuel j _ pq1 _ (by omega) (Nat.le_refl _)

theorem downLoop_fuel (n : Nat) : ∀ (f1 f2 : Nat) (pq : PriorityQueue T) (i : Nat),
    n - i ≤ f1 → n - i ≤ f2 → heap.downLoop n f1 pq i = heap.downLoop n f2 pq i := by
  intro f1
  induction f1 with
  | zero =>
    intro f2 pq i h1 _
    cases f2 with
    | zero => rfl
    | succ f2 => rw [heap.downLoop, heap.downLoop, if_pos (by omega)]
  | succ f1 ih =>
    intro f2 pq i h1 h2
    cases f2 with
    | zero => rw [heap.downLoop, heap.downLoop, if_pos (by omega)]
    | succ f2 =>
      rw [heap.downLoop, heap.downLoop]
      by_cases hj1 : n ≤ 2 * i + 1
      · rw [if_pos hj1, if_pos hj1]
      · rw [if_neg hj1, if_neg hj1]
        cases (if 2 * i + 1 + 1 < n then pq.Less (2 * i + 1 + 1) (2 * i + 1) else some false) with
        | none => rfl
        | some r =>
          simp only
          cases pq.Less (if r = true then 2 * i + 1 + 1 else 2 * i + 1) i with
          | none => rfl
          | some c =>
            cases c with
            | false => rfl
            | true =>
              simp only
              cases pq.Swap i (if r = true then 2 * i + 1 + 1 else 2 * i + 1) with
              | none => rfl
              | some pq1 =>
                simp only
                apply ih
                · split <;> omega
                · split <;> omega

/-- The sift-down satisfies the equation of the library loop: the iteration
bound in `heap.down` is never reached. -/
theorem down_unfold (pq : PriorityQueue T) (i n : Nat) :
    heap.down pq i n =
      if n ≤ 2 * i + 1 then some pq
      else
        match (if 2 * i + 1 + 1 < n then pq.Less (2 * i + 1 + 1) (2 * i + 1) else some false) with
        | none => none
        | some r =>
          match pq.Less (if r = true then 2 * i + 1 + 1 else 2 * i + 1) i with
          | none => none
          | some false => some pq
          | some true =>
            match pq.Swap i (if r = true then 2 * i + 1 + 1 else 2 * i + 1) with
            | none => none
            | some pq1 => heap.down pq1 (if r = true then 2 * i + 1 + 1 else 2 * i + 1) n := by
  unfold heap.down
  by_cases hj1 : n ≤ 2 * i + 1
  · rw [if_pos hj1]
    cases hf : n - i with
    | zero => rfl
    | succ f => rw [heap.downLoop, if_pos hj1]
  · rw [if_neg hj1]
    cases hf : n - i with
    | zero => omega
    | succ f =>
      rw [heap.downLoop, if_neg hj1]
      cases (if 2 * i + 1 + 1 < n then pq.Less (2 * i + 1 + 1) (2 * i + 1) else some false) with
      | none => rfl
      | some r =>
        simp only
        cases pq.Less (if r = true then 2 * i + 1 + 1 else 2 * i + 1) i with
        | none => rfl
        | some c =>
          cases c with
          | false => rfl
          | true =>
            simp only
            cases pq.Swap i (if r = true then 2 * i + 1 + 1 else 2 * i + 1) with
            | none => rfl
            | some pq1 =>
              simp only
              apply downLoop_fuel
              · split <;> omega
              · exact Nat.le_refl _

theorem pushAll_spec : ∀ (l : List (T × Int)) (pq : PriorityQueue T),
    ∃ pq1, pushAll pq l = some pq1 ∧ pq1.comparator = pq.comparator ∧
      pq1.keys.Perm (pq.keys ++ l) ∧
      (StrictWeakOrder pq.comparator → pq.IsHeap → pq1.IsHeap) := by
  intro l
  induction l with
  | nil =>
    intro pq
    exact ⟨pq, rfl, rfl, by simp, fun _ hh => hh⟩
  | cons x rest ih =>
    intro pq
    obtain ⟨v, p⟩ := x
    obtain ⟨pq1, h1, h2, h3, _, h5⟩ := PushItem_spec pq v p
    obtain ⟨pq2, h6, h7, h8, h9⟩ := ih pq1
    refine ⟨pq2, ?_, h7.trans h2, ?_, ?_⟩
    · simp only [pushAll, h1, h6]
    · refine h8.trans ?_
      have := h3.append_right rest
      simpa using this
    · intro ho hh
      exact h9 (h2 ▸ ho) (h5 ho hh)

theorem popN_spec [Inhabited T] : ∀ (n : Nat) (pq : PriorityQueue T), pq.items.length = n →
    ∃ rs pqf, popN n pq = some (rs, pqf) ∧ pqf.items.length = 0 ∧
      pqf.comparator = pq.comparator ∧ (∀ r ∈ rs, r.2 = none) ∧
      (rs.map Prod.fst).Perm (pq.keys.map Prod.fst) := by
  intro n
  induction n with
  | zero =>
    intro pq h
    refine ⟨[], pq, rfl, h, rfl, by simp, ?_⟩
    have : pq.keys = [] := List.length_eq_zero.mp (by rw [keys_length]; exact h)
    rw [this]
    exact List.Perm.refl _
  | succ n ih =>
    intro pq h
    obtain ⟨pq1, h1, _, h2, h3, h4, _⟩ := PopItem_spec pq (by omega)
    have hlen1 : pq1.items.length = n := by
      unfold PriorityQueue.Len at h4; omega
    obtain ⟨rs, pqf, h5, h6, h7, h8, h9⟩ := ih pq1 hlen1
    refine ⟨(pq.items[0].Value, none) :: rs, pqf, ?_, h6, h7.trans h2, ?_, ?_⟩
    · simp only [popN, h1, h5]
    · intro r hr
      rcases List.mem_cons.mp hr with hr | hr
      · rw [hr]
      · exact h8 r hr
    · have := (h3.map Prod.fst).symm
      simp only [List.map_cons] at this ⊢
      exact (List.Perm.cons _ h9).trans this

theorem drain_spec [Inhabited T] : ∀ (fuel : Nat) (pq : PriorityQueue T),
    pq.items.length ≤ fuel →
    ∃ popped pqf, drainLoop fuel pq = some (popped.map (fun it => (it.Value, none)), pqf) ∧
      drainItems fuel pq = some popped ∧ pqf.items.length = 0 ∧
      pqf.comparator = pq.comparator ∧ (popped.map Item.key).Perm pq.keys ∧
      (StrictWeakOrder pq.comparator → pq.IsHeap →
        popped.Pairwise (fun a b => pq.comparator b a = false)) := by
  intro fuel
  induction fuel with
  | zero =>
    intro pq h
    have h0 : pq.items.length = 0 := by omega
    have hk : pq.keys = [] := List.length_eq_zero.mp (by rw [keys_length]; exact h0)
    exact ⟨[], pq, rfl, rfl, h0, rfl, by rw [hk]; exact List.Perm.refl _,
      fun _ _ => List.Pairwise.nil⟩
  | succ f ih =>
    intro pq h
    by_cases h0 : pq.items.length = 0
    · have hk : pq.keys = [] := List.length_eq_zero.mp (by rw [keys_length]; exact h0)
      refine ⟨[], pq, ?_, ?_, h0, rfl, by rw [hk]; exact List.Perm.refl _,
        fun _ _ => List.Pairwise.nil⟩
      · rw [drainLoop, if_pos (show pq.Len = 0 from h0)]; rfl
      · rw [drainItems, if_pos (show pq.Len = 0 from h0)]
    · have hpos : 0 < pq.items.length := by omega
      obtain ⟨pq1, h1, h1', h2, h3, h4, h5⟩ := PopItem_spec pq hpos
      have hlen1 : pq1.items.length ≤ f := by
        unfold PriorityQueue.Len at h4; omega
      obtain ⟨popped, pqf, h6, h6', h7, h8, h9, h10⟩ := ih pq1 hlen1
      refine ⟨{ pq.items[0] with index := pq.items.length - 1 } :: popped, pqf, ?_, ?_, h7,
        h8.trans h2, ?_, ?_⟩
      · rw [drainLoop, if_neg (show ¬ pq.Len = 0 from h0), h1]
        simp only [h6, List.map_cons]
      · rw [drainItems, if_neg (show ¬ pq.Len = 0 from h0), h1']
        simp only [h6']
      · rw [List.map_cons]
        exact (List.Perm.cons _ h9).trans h3.symm
      · intro ho hh
        refine List.Pairwise.cons ?_ ?_
        · intro b hb
          have hbk : b.key ∈ pq1.keys := h9.subset (List.mem_map_of_mem _ hb)
          have hbk2 : b.key ∈ pq.keys := h3.symm.subset (List.mem_cons_of_mem _ hbk)
          obtain ⟨x, hx, hxb⟩ := List.mem_map.mp hbk2
          have := isHeap_root_first ho hh hpos x hx
          rw [← this]
          exact ho.exported _ _ _ _ hxb.symm rfl
        · have := h10 (h2 ▸ ho) (h5 ho hh)
          rw [h2] at this
          exact this

theorem minFirst_swo : StrictWeakOrder (minFirst : Comparator T) where
  exported := by
    intro a b a1 b1 ha hb
    simp only [Item.key, Prod.mk.injEq] at ha hb
    simp only [minFirst, ha.2, hb.2]
  irrefl := by intro a; simp [minFirst]
  trans := by
    intro a b c h1 h2
    simp only [minFirst, decide_eq_true_eq] at *
    omega
  incomp := by
    intro a b c h1 h2 h3 h4
    simp only [minFirst, decide_eq_false_iff_not] at *
    omega

theorem maxFirst_swo : StrictWeakOrder (maxFirst : Comparator T) where
  exported := by
    intro a b a1 b1 ha hb
    simp only [Item.key, Prod.mk.injEq] at ha hb
    simp only [maxFirst, ha.2, hb.2]
  irrefl := by intro a; simp [maxFirst]
  trans := by
    intro a b c h1 h2
    simp only [maxFirst, decide_eq_true_eq] at *
    omega
  incomp := by
    intro a b c h1 h2 h3 h4
    simp only [maxFirst, decide_eq_false_iff_not] at *
    omega

theorem push_drain_sorted [Inhabited T] {cmp : Comparator T} (ho : StrictWeakOrder cmp)
    (l : List (T × Int)) :
    ∃ (pq pqf : PriorityQueue T) (popped : List (Item T)), pushAll (New cmp) l = some pq ∧
      drain pq = some (popped.map (fun it => (it.Value, none)), pqf) ∧ pqf.Len = 0 ∧
      (popped.map Item.key).Perm l ∧ popped.Pairwise (fun a b => cmp b a = false) := by
  obtain ⟨pq, h1, h2, h3, h4⟩ := pushAll_spec l (New cmp)
  obtain ⟨popped, pqf, h5, _, h7, _, h9, h10⟩ := drain_spec pq.items.length pq (Nat.le_refl _)
  have hcmp : pq.comparator = cmp := h2.trans (New_comparator cmp)
  refine ⟨pq, pqf, popped, h1, h5, h7, ?_, ?_⟩
  · refine h9.trans ?_
    simpa [New_eq, PriorityQueue.keys] using h3
  · have := h10 (hcmp ▸ ho) (h4 ((New_comparator cmp).symm ▸ ho) (New_isHeap cmp))
    rw [hcmp] at this
    exact this

/-- C1: pushing pairs with pairwise distinct priorities onto a queue from
`New` and calling `PopItem` until `Len()` is 0 returns, each time with a nil
error, the pushed values in strictly ascending priority order under the
comparator `a.Priority < b.Priority`, and in strictly descending priority
order under `a.Priority > b.Priority`; the queue ends empty. -/
theorem popItem_order_distinct_priorities [Inhabited T] (l : List (T × Int))
    (hd : (l.map Prod.snd).Nodup) :
    (∃ (pq pqf : PriorityQueue T) (sorted : List (T × Int)), pushAll (New minFirst) l = some pq ∧
        drain pq = some (sorted.map (fun p => (p.1, none)), pqf) ∧ pqf.Len = 0 ∧
        sorted.Perm l ∧ sorted.Pairwise (fun a b => a.2 < b.2)) ∧
    (∃ (pq pqf : PriorityQueue T) (sorted : List (T × Int)), pushAll (New maxFirst) l = some pq ∧
        drain pq = some (sorted.map (fun p => (p.1, none)), pqf) ∧ pqf.Len = 0 ∧
        sorted.Perm l ∧ sorted.Pairwise (fun a b => a.2 > b.2)) := by
  constructor
  · obtain ⟨pq, pqf, popped, h1, h2, h3, h4, h5⟩ := push_drain_sorted (minFirst_swo (T := T)) l
    refine ⟨pq, pqf, popped.map Item.key, h1, ?_, h3, h4, ?_⟩
    · rw [h2, List.map_map]; rfl
    · have hnd : ((popped.map Item.key).map Prod.snd).Nodup :=
        (h4.map Prod.snd).nodup_iff.mpr hd
      rw [List.map_map] at hnd
      rw [List.pairwise_map]
      have hne := List.pairwise_map.mp hnd
      refine (h5.and hne).imp ?_
      intro a b hab
      have h6 : ¬ b.Priority < a.Priority := by
        simpa [minFirst] using hab.1
      have h7 : a.Priority ≠ b.Priority := hab.2
      show a.Priority < b.Priority
      omega
  · obtain ⟨pq, pqf, popped, h1, h2, h3, h4, h5⟩ := push_drain_sorted (maxFirst_swo (T := T)) l
    refine ⟨pq, pqf, popped.map Item.key, h1, ?_, h3, h4, ?_⟩
    · rw [h2, List.map_map]; rfl
    · have hnd : ((popped.map Item.key).map Prod.snd).Nodup :=
        (h4.map Prod.snd).nodup_iff.mpr hd
      rw [List.map_map] at hnd
      rw [List.pairwise_map]
      have hne := List.pairwise_map.mp hnd
      refine (h5.and hne).imp ?_
      intro a b hab
      have h6 : ¬ b.Priority > a.Priority := by
        simpa [maxFirst] using hab.1
      have h7 : a.Priority ≠ b.Priority := hab.2
      show a.Priority > b.Priority
      omega

/-- Witness of C1 on the priorities 5, 1, 0, 3 of the table test, which pop
in the order 0, 1, 3, 5. -/
theorem popItem_order_distinct_priorities_witness :
    (testPairs.map Prod.snd).Nodup ∧
    ((∃ (pq pqf : PriorityQueue Nat) (sorted : List (Nat × Int)), pushAll (New minFirst) testPairs = some pq ∧
        drain pq = some (sorted.map (fun p => (p.1, none)), pqf) ∧ pqf.Len = 0 ∧
        sorted.Perm testPairs ∧ sorted.Pairwise (fun a b => a.2 < b.2)) ∧
    (∃ (pq pqf : PriorityQueue Nat) (sorted : List (Nat × Int)), pushAll (New maxFirst) testPairs = some pq ∧
        drain pq = some (sorted.map (fun p => (p.1, none)), pqf) ∧ pqf.Len = 0 ∧
        sorted.Perm testPairs ∧ sorted.Pairwise (fun a b => a.2 > b.2))) ∧
    ((pushAll (New minFirst) testPairs).bind drain).map Prod.fst =
      some [(0, none), (1, none), (3, none), (5, none)] :=
  ⟨by decide, popItem_order_distinct_priorities testPairs (by decide), by rfl⟩

/-- C2: under a comparator that is a strict weak order on items (a relation
on their `Value` and `Priority`), any finite sequence of `PushItem`, `PopItem`
and `PeekItem` calls on a queue from `New` runs to a queue whose draining by
repeated `PopItem` succeeds, empties it, and removes its items in an order in
which the comparator never ranks a later-popped item before an earlier-popped
one. -/
theorem drain_sorted_after_calls [Inhabited T] (cmp : Comparator T)
    (ho : StrictWeakOrder cmp) (ops : List (Op T)) :
    ∃ (pq pqf : PriorityQueue T) (popped : List (Item T)), (New cmp).run ops = some pq ∧
      drain pq = some (popped.map (fun it => (it.Value, none)), pqf) ∧
      drainItems pq.Len pq = some popped ∧ pqf.Len = 0 ∧
      (popped.map Item.key).Perm (pq.items.map Item.key) ∧
      popped.Pairwise (fun a b => cmp b a = false) := by
  obtain ⟨pq, h1, h2, h3⟩ := run_spec ops (New cmp)
  obtain ⟨popped, pqf, h5, h6, h7, _, h9, h10⟩ := drain_spec pq.items.length pq (Nat.le_refl _)
  have hcmp : pq.comparator = cmp := h2.trans (New_comparator cmp)
  refine ⟨pq, pqf, popped, h1, h5, h6, h7, h9, ?_⟩
  have := h10 (hcmp ▸ ho) (h3 ((New_comparator cmp).symm ▸ ho) (New_isHeap cmp))
  rw [hcmp] at this
  exact this

/-- Witness of C2 with smallest-first on the calls push 5, push 1, pop,
push 0, push 3. -/
theorem drain_sorted_after_calls_witness :
    StrictWeakOrder (minFirst : Comparator Nat) ∧
    ∃ (pq pqf : PriorityQueue Nat) (popped : List (Item Nat)),
      (New minFirst).run [Op.push 5 5, Op.push 1 1, Op.pop, Op.push 0 0, Op.push 3 3] = some pq ∧
      drain pq = some (popped.map (fun it => (it.Value, none)), pqf) ∧
      drainItems pq.Len pq = some popped ∧ pqf.Len = 0 ∧
      (popped.map Item.key).Perm (pq.items.map Item.key) ∧
      popped.Pairwise (fun a b => (minFirst : Comparator Nat) b a = false) :=
  ⟨minFirst_swo, drain_sorted_after_calls minFirst minFirst_swo _⟩

/-- C3: on a non-empty queue reached from `New` by public calls under a
comparator that is a strict weak order on items (a relation on their `Value`
and `Priority`), `PopItem` returns with a nil error the value of
the root item, which no item held before the call is ranked before; the items
afterwards are the items before less that one item, and `Len()` is one
smaller. -/
theorem popItem_returns_first_ranked [Inhabited T] (cmp : Comparator T)
    (ho : StrictWeakOrder cmp) (ops : List (Op T)) (pq : PriorityQueue T)
    (hrun : (New cmp).run ops = some pq) (hne : 0 < pq.Len) :
    ∃ it pq1, pq.items[0]? = some it ∧ pq.PopItem = some ((it.Value, none), pq1) ∧
      (∀ x ∈ pq.items, cmp x it = false) ∧
      (pq.items.map Item.key).Perm (it.key :: pq1.items.map Item.key) ∧
      pq1.Len + 1 = pq.Len := by
  obtain ⟨pq', h1, h2, h3⟩ := run_spec ops (New cmp)
  rw [hrun] at h1
  cases h1
  have hcmp : pq.comparator = cmp := h2.trans (New_comparator cmp)
  obtain ⟨pq1, h4, _, _, h6, h7, _⟩ := PopItem_spec pq hne
  refine ⟨pq.items[0], pq1, List.getElem?_eq_getElem hne, h4, ?_, h6, h7⟩
  have := isHeap_root_first (hcmp ▸ ho) (h3 ((New_comparator cmp).symm ▸ ho) (New_isHeap cmp)) hne
  rw [hcmp] at this
  exact this

/-- Witness of C3 on the queue holding priorities 1 and 5, smallest first. -/
theorem popItem_returns_first_ranked_witness :
    StrictWeakOrder (minFirst : Comparator Nat) ∧
    (New minFirst).run [Op.push 5 5, Op.push 1 1] = some twoItems ∧ 0 < twoItems.Len ∧
    ∃ it pq1, twoItems.items[0]? = some it ∧ twoItems.PopItem = some ((it.Value, none), pq1) ∧
      (∀ x ∈ twoItems.items, (minFirst : Comparator Nat) x it = false) ∧
      (twoItems.items.map Item.key).Perm (it.key :: pq1.items.map Item.key) ∧
      pq1.Len + 1 = twoItems.Len :=
  ⟨minFirst_swo, by rfl, by decide,
    popItem_returns_first_ranked minFirst minFirst_swo [Op.push 5 5, Op.push 1 1] twoItems
      (by rfl) (by decide)⟩

/-- C4: for every comparator and every list of `n` pushed pairs, the `n`
`PushItem` calls and then `n` `PopItem` calls all succeed, every `PopItem`
returns a nil error, the returned values are a permutation of the pushed
values, and the queue ends with `Len() = 0`. -/
theorem pop_all_returns_pushed_values [Inhabited T] (cmp : Comparator T) (l : List (T × Int)) :
    ∃ pq rs pqf, pushAll (New cmp) l = some pq ∧ popN l.length pq = some (rs, pqf) ∧
      rs.length = l.length ∧ (∀ r ∈ rs, r.2 = none) ∧
      (rs.map Prod.fst).Perm (l.map Prod.fst) ∧ pqf.Len = 0 := by
  obtain ⟨pq, h1, _, h3, _⟩ := pushAll_spec l (New cmp)
  have hk : pq.keys.Perm l := by simpa [New_eq, PriorityQueue.keys] using h3
  have hlen : pq.items.length = l.length := keys_len_of_perm hk
  obtain ⟨rs, pqf, h5, h6, _, h8, h9⟩ := popN_spec l.length pq hlen
  refine ⟨pq, rs, pqf, h1, h5, ?_, h8, h9.trans (hk.map Prod.fst), h6⟩
  have := (h9.trans (hk.map Prod.fst)).length_eq
  simpa using this

/-- C5: `PopItem` and `PeekItem` return an error exactly when the queue holds
no element; then the value is the zero value and the queue is unchanged, and
otherwise both return a nil error.  Both fail on a queue fresh from `New`. -/
theorem popItem_peekItem_error_iff_empty [Inhabited T] (pq : PriorityQueue T)
    (cmp : Comparator T) :
    (∃ r pq1, pq.PopItem = some (r, pq1) ∧ (r.2.isSome ↔ pq.Len = 0) ∧
      (pq.Len = 0 → r.1 = default ∧ pq1 = pq ∧ pq1.Len = 0)) ∧
    (∃ r pq1, pq.PeekItem = some (r, pq1) ∧ (r.2.isSome ↔ pq.Len = 0) ∧
      (pq.Len = 0 → r.1 = default ∧ pq1 = pq ∧ pq1.Len = 0)) ∧
    (∃ e, (New cmp).PopItem = some ((default, some e), New cmp)) ∧
    (∃ e, (New cmp).PeekItem = some ((default, some e), New cmp)) := by
  refine ⟨?_, ?_, ⟨_, PopItem_empty _ (by rw [New_eq]; rfl)⟩,
    ⟨_, PeekItem_empty _ (by rw [New_eq]; rfl)⟩⟩
  · by_cases h : pq.items.length = 0
    · refine ⟨_, _, PopItem_empty pq h, ?_, ?_⟩
      · simp [PriorityQueue.Len, h]
      · intro _; exact ⟨rfl, rfl, h⟩
    · obtain ⟨pq1, h1, _⟩ := PopItem_spec pq (by omega)
      refine ⟨_, _, h1, ?_, ?_⟩
      · simp [PriorityQueue.Len, h]
      · intro h'; exact absurd h' h
  · by_cases h : pq.items.length = 0
    · refine ⟨_, _, PeekItem_empty pq h, ?_, ?_⟩
      · simp [PriorityQueue.Len, h]
      · intro _; exact ⟨rfl, rfl, h⟩
    · refine ⟨_, _, PeekItem_spec pq (by omega), ?_, ?_⟩
      · simp [PriorityQueue.Len, h]
      · intro h'; exact absurd h' h

/-- C6: on every non-empty queue, whatever its comparator and the order of
its slots, `PeekItem` returns with a nil error the value that the following
`PopItem` returns, `PeekItem` leaves the queue as it is, and `PopItem` lowers
`Len()` by exactly one. -/
theorem peekItem_then_popItem_same_value [Inhabited T] (pq : PriorityQueue T)
    (hne : 0 < pq.Len) :
    ∃ v pq1, pq.PeekItem = some ((v, none), pq) ∧ pq.PopItem = some ((v, none), pq1) ∧
      pq1.Len + 1 = pq.Len := by
  obtain ⟨pq1, h1, _, _, _, h4, _⟩ := PopItem_spec pq hne
  exact ⟨_, pq1, PeekItem_spec pq hne, h1, h4⟩

/-- Witness of C6 on the queue holding priorities 1 and 5. -/
theorem peekItem_then_popItem_same_value_witness :
    0 < twoItems.Len ∧
    ∃ v pq1, twoItems.PeekItem = some ((v, none), twoItems) ∧
      twoItems.PopItem = some ((v, none), pq1) ∧ pq1.Len + 1 = twoItems.Len :=
  ⟨by decide, peekItem_then_popItem_same_value twoItems (by decide)⟩

theorem run_len [Inhabited T] : ∀ (ops : List (Op T)) (pq : PriorityQueue T),
    ∃ pq1, pq.run ops = some pq1 ∧ pq1.Len + countPopOk pq ops = pq.Len + countPush ops := by
  intro ops
  induction ops with
  | nil => intro pq; exact ⟨pq, rfl, rfl⟩
  | cons op rest ih =>
    intro pq
    cases op with
    | push v p =>
      obtain ⟨pq1, h1, _, _, h4, _⟩ := PushItem_spec pq v p
      obtain ⟨pq2, h5, h6⟩ := ih pq1
      refine ⟨pq2, by simp only [PriorityQueue.run, PriorityQueue.call, h1, h5], ?_⟩
      simp only [countPopOk, PriorityQueue.call, h1, countPush]
      omega
    | pop =>
      by_cases h : pq.items.length = 0
      · obtain ⟨pq2, h5, h6⟩ := ih pq
        refine ⟨pq2, by simp only [PriorityQueue.run, PriorityQueue.call, PopItem_empty pq h, h5],
          ?_⟩
        simp only [countPopOk, PriorityQueue.call, PopItem_empty pq h, countPush]
        omega
      · obtain ⟨pq1, h1, _, _, _, h4, _⟩ := PopItem_spec pq (by omega)
        obtain ⟨pq2, h5, h6⟩ := ih pq1
        refine ⟨pq2, by simp only [PriorityQueue.run, PriorityQueue.call, h1, h5], ?_⟩
        simp only [countPopOk, PriorityQueue.call, h1, countPush]
        omega
    | peek =>
      obtain ⟨pq2, h5, h6⟩ := ih pq
      by_cases h : pq.items.length = 0
      · refine ⟨pq2, by simp only [PriorityQueue.run, PriorityQueue.call, PeekItem_empty pq h, h5],
          ?_⟩
        simp only [countPopOk, PriorityQueue.call, PeekItem_empty pq h, countPush]
        omega
      · have h1 := PeekItem_spec pq (by omega)
        refine ⟨pq2, by simp only [PriorityQueue.run, PriorityQueue.call, h1, h5], ?_⟩
        simp only [countPopOk, PriorityQueue.call, h1, countPush]
        omega

/-- C7: `PushItem` never fails and raises `Len()` by exactly one, for every
value, priority and queue state; and after any sequence of public calls on a
queue from `New`, `Len()` plus the number of `PopItem` calls that returned a
nil error equals the number of `PushItem` calls. -/
theorem pushItem_len_accounting [Inhabited T] (pq : PriorityQueue T) (v : T) (p : Int)
    (cmp : Comparator T) (ops : List (Op T)) :
    (∃ pq1, pq.PushItem v p = some pq1 ∧ pq1.Len = pq.Len + 1) ∧
    (∃ pq2, (New cmp).run ops = some pq2 ∧
      pq2.Len + countPopOk (New cmp) ops = countPush ops) := by
  constructor
  · obtain ⟨pq1, h1, _, _, h4, _⟩ := PushItem_spec pq v p
    exact ⟨pq1, h1, h4⟩
  · obtain ⟨pq2, h1, h2⟩ := run_len ops (New cmp)
    refine ⟨pq2, h1, ?_⟩
    simpa [New_eq, PriorityQueue.Len] using h2

end priorityqueue

namespace list

variable {T : Type}

theorem Front_cons (x : T) (xs : List T) :
    Front (x :: xs) = some { pos := 0, Value := x } := by
  simp [Front]

theorem Remove_front (x : T) (xs : List T) :
    Remove (x :: xs) { pos := 0, Value := x } = xs := by
  simp [Remove]

theorem Back_snoc (xs : List T) (x : T) :
    Back (xs ++ [x]) = some { pos := xs.length, Value := x } := by
  simp [Back]

theorem Remove_back (xs : List T) (x : T) :
    Remove (xs ++ [x]) { pos := xs.length, Value := x } = xs := by
  simp [Remove, List.eraseIdx_append_of_length_le]

theorem nil_or_snoc (l : List T) : l = [] ∨ ∃ xs x, l = xs ++ [x] := by
  rcases List.eq_nil_or_concat l with h | ⟨xs, x, h⟩
  · exact Or.inl h
  · exact Or.inr ⟨xs, x, by rw [h, List.concat_eq_append]⟩

end list

section assertion

variable {T : Type}

theorem typeAssert_value [GoType T] (v : T) (h : GoType.isNilInterface v = false) :
    typeAssert v = some v := by
  simp [typeAssert, h]

theorem typeAssert_nil [GoType T] (v : T) (h : GoType.isNilInterface v = true) :
    typeAssert v = none := by
  simp [typeAssert, h]

end assertion

namespace queue

variable {T : Type}

theorem Dequeue_nil [GoType T] :
    (Queue.mk ([] : List T)).Dequeue = some ((default, some "queue is empty"), { items := [] }) :=
  rfl

theorem QPeek_nil [GoType T] :
    (Queue.mk ([] : List T)).Peek = some ((default, some "queue is empty"), { items := [] }) :=
  rfl

theorem Dequeue_cons [GoType T] (x : T) (xs : List T) (hx : GoType.isNilInterface x = false) :
    (Queue.mk (x :: xs)).Dequeue = some ((x, none), { items := xs }) := by
  simp [Queue.Dequeue, list.Front_cons, list.Remove_front, typeAssert_value x hx]

theorem Dequeue_cons_nil [GoType T] (x : T) (xs : List T)
    (hx : GoType.isNilInterface x = true) : (Queue.mk (x :: xs)).Dequeue = none := by
  simp [Queue.Dequeue, list.Front_cons, typeAssert_nil x hx]

theorem QPeek_cons [GoType T] (x : T) (xs : List T) (hx : GoType.isNilInterface x = false) :
    (Queue.mk (x :: xs)).Peek = some ((x, none), { items := x :: xs }) := by
  simp [Queue.Peek, list.Front_cons, typeAssert_value x hx]

theorem QPeek_cons_nil [GoType T] (x : T) (xs : List T)
    (hx : GoType.isNilInterface x = true) : (Queue.mk (x :: xs)).Peek = none := by
  simp [Queue.Peek, list.Front_cons, typeAssert_nil x hx]

theorem enqueueAll_items : ∀ (l : List T) (q : Queue T), (enqueueAll q l).items = q.items ++ l := by
  intro l
  induction l with
  | nil => intro q; simp [enqueueAll]
  | cons v rest ih => intro q; simp [enqueueAll, ih, Queue.Enqueue, list.PushBack]

theorem enqueueAll_New (l : List T) : enqueueAll New l = { items := l } := by
  have := enqueueAll_items l (New : Queue T)
  cases hq : enqueueAll New l
  rw [hq] at this
  simpa [New] using this

theorem dequeueN_all [GoType T] (l : List T) (hl : ∀ v ∈ l, GoType.isNilInterface v = false) :
    dequeueN l.length { items := l } = some (l.map (fun v => (v, none)), { items := [] }) := by
  induction l with
  | nil => rfl
  | cons x xs ih =>
    have h1 := Dequeue_cons x xs (hl x (List.mem_cons_self x xs))
    have h2 := ih (fun v hv => hl v (List.mem_cons_of_mem x hv))
    simp only [List.length_cons, dequeueN, h1, h2, List.map_cons]

/-- What holds of the order of a queue: when no enqueued value is stored as
the nil interface, `n` `Dequeue` calls return the enqueued values in order with
nil errors and leave the queue empty. -/
theorem queue_fifo_without_nil [GoType T] (l : List T)
    (hl : ∀ v ∈ l, GoType.isNilInterface v = false) :
    ∃ qf, dequeueN l.length (enqueueAll New l) = some (l.map (fun v => (v, none)), qf) ∧
      qf.Len = 0 ∧ qf.IsEmpty = true := by
  rw [enqueueAll_New]
  exact ⟨{ items := [] }, dequeueN_all l hl, rfl, rfl⟩

/-- C8 on a queue of `any`: after `Enqueue(nil)` the queue holds one element,
and `Dequeue` panics in its type assertion instead of returning the enqueued
value with a nil error; after `Enqueue(1)`, `Enqueue(nil)` the second of two
`Dequeue` calls panics. -/
theorem queue_dequeue_panics_on_nil_interface :
    (enqueueAll New [(Iface.nil : Iface Nat)]).Len = 1 ∧
    (enqueueAll New [(Iface.nil : Iface Nat)]).Dequeue = none ∧
    dequeueN 1 (enqueueAll New [(Iface.nil : Iface Nat)]) = none ∧
    dequeueN 2 (enqueueAll New [Iface.val 1, (Iface.nil : Iface Nat)]) = none :=
  ⟨rfl, rfl, rfl, rfl⟩

end queue

namespace stack

variable {T : Type}

theorem SPop_nil [GoType T] :
    (Stack.mk ([] : List T)).Pop = some ((default, some "stack is empty"), { items := [] }) :=
  rfl

theorem SPeek_nil [GoType T] :
    (Stack.mk ([] : List T)).Peek = some ((default, some "stack is empty"), { items := [] }) :=
  rfl

theorem SPop_snoc [GoType T] (xs : List T) (x : T) (hx : GoType.isNilInterface x = false) :
    (Stack.mk (xs ++ [x])).Pop = some ((x, none), { items := xs }) := by
  simp [Stack.Pop, list.Back_snoc, list.Remove_back, typeAssert_value x hx]

theorem SPop_snoc_nil [GoType T] (xs : List T) (x : T)
    (hx : GoType.isNilInterface x = true) : (Stack.mk (xs ++ [x])).Pop = none := by
  simp [Stack.Pop, list.Back_snoc, typeAssert_nil x hx]

theorem SPeek_snoc [GoType T] (xs : List T) (x : T) (hx : GoType.isNilInterface x = false) :
    (Stack.mk (xs ++ [x])).Peek = some ((x, none), { items := xs ++ [x] }) := by
  simp [Stack.Peek, list.Back_snoc, typeAssert_value x hx]

theorem SPeek_snoc_nil [GoType T] (xs : List T) (x : T)
    (hx : GoType.isNilInterface x = true) : (Stack.mk (xs ++ [x])).Peek = none := by
  simp [Stack.Peek, list.Back_snoc, typeAssert_nil x hx]

theorem pushAll_items : ∀ (l : List T) (s : Stack T), (pushAll s l).items = s.items ++ l := by
  intro l
  induction l with
  | nil => intro s; simp [pushAll]
  | cons v rest ih => intro s; simp [pushAll, ih, Stack.Push, list.PushBack]

theorem pushAll_New (l : List T) : pushAll New l = { items := l } := by
  have := pushAll_items l (New : Stack T)
  cases hs : pushAll New l
  rw [hs] at this
  simpa [New] using this

theorem popN_all [GoType T] (l : List T) (hl : ∀ v ∈ l, GoType.isNilInterface v = false) :
    popN l.length { items := l } = some (l.reverse.map (fun v => (v, none)), { items := [] }) := by
  induction l using List.reverseRecOn with
  | nil => rfl
  | append_singleton xs x ih =>
    have h1 := SPop_snoc xs x (hl x (by simp))
    have h2 := ih (fun v hv => hl v (by simp [hv]))
    simp only [List.length_append, List.length_singleton, popN, h1, h2,
      List.reverse_append, List.reverse_singleton, List.singleton_append, List.map_cons]

/-- What holds of the order of a stack: when no pushed value is stored as the
nil interface, `n` `Pop` calls return the pushed values in reverse order with
nil errors and leave the stack empty. -/
theorem stack_lifo_without_nil [GoType T] (l : List T)
    (hl : ∀ v ∈ l, GoType.isNilInterface v = false) :
    ∃ sf, popN l.length (pushAll New l) = some (l.reverse.map (fun v => (v, none)), sf) ∧
      sf.Len = 0 := by
  rw [pushAll_New]
  exact ⟨{ items := [] }, popN_all l hl, rfl⟩

/-- C9 on a stack of `error`: after `Push(nil)` the stack holds one element,
and `Pop` panics in its type assertion instead of returning the pushed value
with a nil error; after `Push(nil)`, `Push(1)` the second of two `Pop` calls
panics. -/
theorem stack_pop_panics_on_nil_interface :
    (pushAll New [(Iface.nil : Iface Nat)]).Len = 1 ∧
    (pushAll New [(Iface.nil : Iface Nat)]).Pop = none ∧
    popN 1 (pushAll New [(Iface.nil : Iface Nat)]) = none ∧
    popN 2 (pushAll New [(Iface.nil : Iface Nat), Iface.val 1]) = none :=
  ⟨rfl, rfl, rfl, rfl⟩

end stack

namespace deque

variable {T : Type}

theorem PopFront_nil [GoType T] :
    (Deque.mk ([] : List T)).PopFront = some ((default, some "deque is empty"), { items := [] }) :=
  rfl

theorem PopBack_nil [GoType T] :
    (Deque.mk ([] : List T)).PopBack = some ((default, some "deque is empty"), { items := [] }) :=
  rfl

theorem PeekFront_nil [GoType T] :
    (Deque.mk ([] : List T)).PeekFront = some ((default, some "deque is empty"), { items := [] }) :=
  rfl

theorem PeekBack_nil [GoType T] :
    (Deque.mk ([] : List T)).PeekBack = some ((default, some "deque is empty"), { items := [] }) :=
  rfl

theorem PopFront_cons [GoType T] (x : T) (xs : List T) (hx : GoType.isNilInterface x = false) :
    (Deque.mk (x :: xs)).PopFront = some ((x, none), { items := xs }) := by
  simp [Deque.PopFront, list.Front_cons, list.Remove_front, typeAssert_value x hx]

theorem PopFront_cons_nil [GoType T] (x : T) (xs : List T)
    (hx : GoType.isNilInterface x = true) : (Deque.mk (x :: xs)).PopFront = none := by
  simp [Deque.PopFront, list.Front_cons, typeAssert_nil x hx]

theorem PeekFront_cons [GoType T] (x : T) (xs : List T) (hx : GoType.isNilInterface x = false) :
    (Deque.mk (x :: xs)).PeekFront = some ((x, none), { items := x :: xs }) := by
  simp [Deque.PeekFront, list.Front_cons, typeAssert_value x hx]

theorem PeekFront_cons_nil [GoType T] (x : T) (xs : List T)
    (hx : GoType.isNilInterface x = true) : (Deque.mk (x :: xs)).PeekFront = none := by
  simp [Deque.PeekFront, list.Front_cons, typeAssert_nil x hx]

theorem PopBack_snoc [GoType T] (xs : List T) (x : T) (hx : GoType.isNilInterface x = false) :
    (Deque.mk (xs ++ [x])).PopBack = some ((x, none), { items := xs }) := by
  simp [Deque.PopBack, list.Back_snoc, list.Remove_back, typeAssert_value x hx]

theorem PopBack_snoc_nil [GoType T] (xs : List T) (x : T)
    (hx : GoType.isNilInterface x = true) : (Deque.mk (xs ++ [x])).PopBack = none := by
  simp [Deque.PopBack, list.Back_snoc, typeAssert_nil x hx]

theorem PeekBack_snoc [GoType T] (xs : List T) (x : T) (hx : GoType.isNilInterface x = false) :
    (Deque.mk (xs ++ [x])).PeekBack = some ((x, none), { items := xs ++ [x] }) := by
  simp [Deque.PeekBack, list.Back_snoc, typeAssert_value x hx]

theorem PeekBack_snoc_nil [GoType T] (xs : List T) (x : T)
    (hx : GoType.isNilInterface x = true) : (Deque.mk (xs ++ [x])).PeekBack = none := by
  simp [Deque.PeekBack, list.Back_snoc, typeAssert_nil x hx]

theorem pushFrontAll_items : ∀ (l : List T) (d : Deque T),
    (pushFrontAll d l).items = l.reverse ++ d.items := by
  intro l
  induction l with
  | nil => intro d; simp [pushFrontAll]
  | cons v rest ih => intro d; simp [pushFrontAll, ih, Deque.PushFront, list.PushFront]

theorem pushBackAll_items : ∀ (l : List T) (d : Deque T),
    (pushBackAll d l).items = d.items ++ l := by
  intro l
  induction l with
  | nil => intro d; simp [pushBackAll]
  | cons v rest ih => intro d; simp [pushBackAll, ih, Deque.PushBack, list.PushBack]

theorem popFrontN_all [GoType T] (l : List T) (hl : ∀ v ∈ l, GoType.isNilInterface v = false) :
    popFrontN l.length { items := l } = some (l.map (fun v => (v, none)), { items := [] }) := by
  induction l with
  | nil => rfl
  | cons x xs ih =>
    have h1 := PopFront_cons x xs (hl x (List.mem_cons_self x xs))
    have h2 := ih (fun v hv => hl v (List.mem_cons_of_mem x hv))
    simp only [List.length_cons, popFrontN, h1, h2, List.map_cons]

theorem popBackN_all [GoType T] (l : List T) (hl : ∀ v ∈ l, GoType.isNilInterface v = false) :
    popBackN l.length { items := l } = some (l.reverse.map (fun v => (v, none)), { items := [] }) := by
  induction l using List.reverseRecOn with
  | nil => rfl
  | append_singleton xs x ih =>
    have h1 := PopBack_snoc xs x (hl x (by simp))
    have h2 := ih (fun v hv => hl v (by simp [hv]))
    simp only [List.length_append, List.length_singleton, popBackN, h1, h2,
      List.reverse_append, List.reverse_singleton, List.singleton_append, List.map_cons]

/-- What holds of the order of a deque: when no pushed value is stored as the
nil interface, the four pairings of a push end with a pop end return the
values in the order of C10, with nil errors, and leave the deque empty. -/
theorem deque_symmetry_without_nil [GoType T] (l : List T)
    (hl : ∀ v ∈ l, GoType.isNilInterface v = false) :
    popBackN l.length (pushFrontAll New l) =
      some (l.map (fun v => (v, none)), { items := [] }) ∧
    popFrontN l.length (pushFrontAll New l) =
      some (l.reverse.map (fun v => (v, none)), { items := [] }) ∧
    popFrontN l.length (pushBackAll New l) =
      some (l.map (fun v => (v, none)), { items := [] }) ∧
    popBackN l.length (pushBackAll New l) =
      some (l.reverse.map (fun v => (v, none)), { items := [] }) := by
  have hf : pushFrontAll (New : Deque T) l = { items := l.reverse } := by
    have := pushFrontAll_items l (New : Deque T)
    cases hd : pushFrontAll New l
    rw [hd] at this
    simpa [New] using this
  have hb : pushBackAll (New : Deque T) l = { items := l } := by
    have := pushBackAll_items l (New : Deque T)
    cases hd : pushBackAll New l
    rw [hd] at this
    simpa [New] using this
  have hr : ∀ v ∈ l.reverse, GoType.isNilInterface v = false :=
    fun v hv => hl v (List.mem_reverse.mp hv)
  rw [hf, hb]
  refine ⟨?_, ?_, popFrontN_all l hl, popBackN_all l hl⟩
  · have := popBackN_all l.reverse hr
    simpa using this
  · have := popFrontN_all l.reverse hr
    simpa using this

/-- C10 on a deque of `any`: after `PushFront(nil)` or `PushBack(nil)` the
deque holds one element, and `PopBack` and `PopFront` panic in their type
assertion instead of returning the pushed value with a nil error. -/
theorem deque_pop_panics_on_nil_interface :
    (pushFrontAll New [(Iface.nil : Iface Nat)]).Len = 1 ∧
    popBackN 1 (pushFrontAll New [(Iface.nil : Iface Nat)]) = none ∧
    popFrontN 1 (pushFrontAll New [(Iface.nil : Iface Nat)]) = none ∧
    (pushBackAll New [(Iface.nil : Iface Nat)]).Len = 1 ∧
    popFrontN 1 (pushBackAll New [(Iface.nil : Iface Nat)]) = none ∧
    popBackN 1 (pushBackAll New [(Iface.nil : Iface Nat)]) = none :=
  ⟨rfl, rfl, rfl, rfl, rfl, rfl⟩

theorem PopFront_outcome [GoType T] (d : Deque T) :
    match d.PopFront with
    | none => ∃ v ∈ d.items, GoType.isNilInterface v = true
    | some (r, _) => r.2 = (if d.Len = 0 then some "deque is empty" else none) := by
  obtain ⟨l⟩ := d
  cases l with
  | nil => rw [PopFront_nil]; rfl
  | cons x xs =>
    cases hx : GoType.isNilInterface x with
    | false => rw [PopFront_cons x xs hx]; simp [Deque.Len]
    | true => rw [PopFront_cons_nil x xs hx]; exact ⟨x, List.mem_cons_self x xs, hx⟩

theorem PeekFront_outcome [GoType T] (d : Deque T) :
    match d.PeekFront with
    | none => ∃ v ∈ d.items, GoType.isNilInterface v = true
    | some (r, _) => r.2 = (if d.Len = 0 then some "deque is empty" else none) := by
  obtain ⟨l⟩ := d
  cases l with
  | nil => rw [PeekFront_nil]; rfl
  | cons x xs =>
    cases hx : GoType.isNilInterface x with
    | false => rw [PeekFront_cons x xs hx]; simp [Deque.Len]
    | true => rw [PeekFront_cons_nil x xs hx]; exact ⟨x, List.mem_cons_self x xs, hx⟩

theorem PopBack_outcome [GoType T] (d : Deque T) :
    match d.PopBack with
    | none => ∃ v ∈ d.items, GoType.isNilInterface v = true
    | some (r, _) => r.2 = (if d.Len = 0 then some "deque is empty" else none) := by
  obtain ⟨l⟩ := d
  rcases list.nil_or_snoc l with rfl | ⟨xs, x, rfl⟩
  · rw [PopBack_nil]; rfl
  · cases hx : GoType.isNilInterface x with
    | false => rw [PopBack_snoc xs x hx]; simp [Deque.Len]
    | true => rw [PopBack_snoc_nil xs x hx]; exact ⟨x, by simp, hx⟩

theorem PeekBack_outcome [GoType T] (d : Deque T) :
    match d.PeekBack with
    | none => ∃ v ∈ d.items, GoType.isNilInterface v = true
    | some (r, _) => r.2 = (if d.Len = 0 then some "deque is empty" else none) := by
  obtain ⟨l⟩ := d
  rcases list.nil_or_snoc l with rfl | ⟨xs, x, rfl⟩
  · rw [PeekBack_nil]; rfl
  · cases hx : GoType.isNilInterface x with
    | false => rw [PeekBack_snoc xs x hx]; simp [Deque.Len]
    | true => rw [PeekBack_snoc_nil xs x hx]; exact ⟨x, by simp, hx⟩

end deque

namespace queue

variable {T : Type}

theorem Dequeue_outcome [GoType T] (q : Queue T) :
    match q.Dequeue with
    | none => ∃ v ∈ q.items, GoType.isNilInterface v = true
    | some (r, _) => r.2 = (if q.Len = 0 then some "queue is empty" else none) := by
  obtain ⟨l⟩ := q
  cases l with
  | nil => rw [Dequeue_nil]; rfl
  | cons x xs =>
    cases hx : GoType.isNilInterface x with
    | false => rw [Dequeue_cons x xs hx]; simp [Queue.Len]
    | true => rw [Dequeue_cons_nil x xs hx]; exact ⟨x, List.mem_cons_self x xs, hx⟩

theorem QPeek_outcome [GoType T] (q : Queue T) :
    match q.Peek with
    | none => ∃ v ∈ q.items, GoType.isNilInterface v = true
    | some (r, _) => r.2 = (if q.Len = 0 then some "queue is empty" else none) := by
  obtain ⟨l⟩ := q
  cases l with
  | nil => rw [QPeek_nil]; rfl
  | cons x xs =>
    cases hx : GoType.isNilInterface x with
    | false => rw [QPeek_cons x xs hx]; simp [Queue.Len]
    | true => rw [QPeek_cons_nil x xs hx]; exact ⟨x, List.mem_cons_self x xs, hx⟩

end queue

namespace stack

variable {T : Type}

theorem SPop_outcome [GoType T] (s : Stack T) :
    match s.Pop with
    | none => ∃ v ∈ s.items, GoType.isNilInterface v = true
    | some (r, _) => r.2 = (if s.Len = 0 then some "stack is empty" else none) := by
  obtain ⟨l⟩ := s
  rcases list.nil_or_snoc l with rfl | ⟨xs, x, rfl⟩
  · rw [SPop_nil]; rfl
  · cases hx : GoType.isNilInterface x with
    | false => rw [SPop_snoc xs x hx]; simp [Stack.Len]
    | true => rw [SPop_snoc_nil xs x hx]; exact ⟨x, by simp, hx⟩

theorem SPeek_outcome [GoType T] (s : Stack T) :
    match s.Peek with
    | none => ∃ v ∈ s.items, GoType.isNilInterface v = true
    | some (r, _) => r.2 = (if s.Len = 0 then some "stack is empty" else none) := by
  obtain ⟨l⟩ := s
  rcases list.nil_or_snoc l with rfl | ⟨xs, x, rfl⟩
  · rw [SPeek_nil]; rfl
  · cases hx : GoType.isNilInterface x with
    | false => rw [SPeek_snoc xs x hx]; simp [Stack.Len]
    | true => rw [SPeek_snoc_nil xs x hx]; exact ⟨x, by simp, hx⟩

end stack

section sequences

variable {T : Type}

/-- C11 on containers of `any` that hold one nil interface value: `Len()` is
1, not 0, and each of the eight removal and peek operations panics in its
type assertion, so an operation fails on a container that is not empty. -/
theorem removal_and_peek_panic_while_not_empty :
    ((deque.New : deque.Deque (Iface Nat)).PushBack Iface.nil).Len = 1 ∧
    ((deque.New : deque.Deque (Iface Nat)).PushBack Iface.nil).PopFront = none ∧
    ((deque.New : deque.Deque (Iface Nat)).PushBack Iface.nil).PopBack = none ∧
    ((deque.New : deque.Deque (Iface Nat)).PushBack Iface.nil).PeekFront = none ∧
    ((deque.New : deque.Deque (Iface Nat)).PushBack Iface.nil).PeekBack = none ∧
    ((queue.New : queue.Queue (Iface Nat)).Enqueue Iface.nil).Len = 1 ∧
    ((queue.New : queue.Queue (Iface Nat)).Enqueue Iface.nil).IsEmpty = false ∧
    ((queue.New : queue.Queue (Iface Nat)).Enqueue Iface.nil).Dequeue = none ∧
    ((queue.New : queue.Queue (Iface Nat)).Enqueue Iface.nil).Peek = none ∧
    ((stack.New : stack.Stack (Iface Nat)).Push Iface.nil).Len = 1 ∧
    ((stack.New : stack.Stack (Iface Nat)).Push Iface.nil).Pop = none ∧
    ((stack.New : stack.Stack (Iface Nat)).Push Iface.nil).Peek = none :=
  ⟨rfl, rfl, rfl, rfl, rfl, rfl, rfl, rfl, rfl, rfl, rfl, rfl⟩

/-- C12 on non-empty containers of `any` whose next value is the nil
interface: the stack after `Push(1)`, `Push(nil)`, the queue after
`Enqueue(nil)`, `Enqueue(1)` and the deque after `PushBack(nil)`,
`PushBack(1)`, `PushBack(nil)` each hold elements, and `Peek` and the removal
that would follow it panic in their type assertion instead of returning a
value with a nil error. -/
theorem peek_and_pop_panic_on_nil_interface :
    (0 < (stack.pushAll stack.New [Iface.val 1, (Iface.nil : Iface Nat)]).Len ∧
      (stack.pushAll stack.New [Iface.val 1, (Iface.nil : Iface Nat)]).Peek = none ∧
      (stack.pushAll stack.New [Iface.val 1, (Iface.nil : Iface Nat)]).Pop = none) ∧
    (0 < (queue.enqueueAll queue.New [(Iface.nil : Iface Nat), Iface.val 1]).Len ∧
      (queue.enqueueAll queue.New [(Iface.nil : Iface Nat), Iface.val 1]).Peek = none ∧
      (queue.enqueueAll queue.New [(Iface.nil : Iface Nat), Iface.val 1]).Dequeue = none) ∧
    (0 < (deque.pushBackAll deque.New [(Iface.nil : Iface Nat), Iface.val 1, Iface.nil]).Len ∧
      (deque.pushBackAll deque.New [(Iface.nil : Iface Nat), Iface.val 1, Iface.nil]).PeekFront =
        none ∧
      (deque.pushBackAll deque.New [(Iface.nil : Iface Nat), Iface.val 1, Iface.nil]).PopFront =
        none ∧
      (deque.pushBackAll deque.New [(Iface.nil : Iface Nat), Iface.val 1, Iface.nil]).PeekBack =
        none ∧
      (deque.pushBackAll deque.New [(Iface.nil : Iface Nat), Iface.val 1, Iface.nil]).PopBack =
        none) :=
  ⟨⟨by decide, rfl, rfl⟩, ⟨by decide, rfl, rfl⟩, ⟨by decide, rfl, rfl, rfl, rfl⟩⟩

theorem queue_call_matches [GoType T] (l : List T) (op : SeqOp T)
    (hl : ∀ v ∈ l, GoType.isNilInterface v = false) (hop : op.addsNil = false) :
    ∃ oq od l1, (queue.Queue.mk l).call op = some (oq, { items := l1 }) ∧
      (deque.Deque.mk l).callFifo op = some (od, { items := l1 }) ∧
      od = oq.relabel "deque is empty" ∧ oq = od.relabel "queue is empty" ∧
      (∀ v ∈ l1, GoType.isNilInterface v = false) := by
  cases op with
  | push v =>
    refine ⟨_, _, l ++ [v], rfl, rfl, rfl, rfl, ?_⟩
    intro w hw
    rcases List.mem_append.mp hw with h | h
    · exact hl w h
    · rw [List.mem_singleton.mp h]
      exact hop
  | len => exact ⟨_, _, _, rfl, rfl, rfl, rfl, hl⟩
  | pop =>
    cases l with
    | nil => exact ⟨_, _, _, rfl, rfl, rfl, rfl, hl⟩
    | cons x xs =>
      have hx := hl x (List.mem_cons_self x xs)
      refine ⟨.result (x, none), .result (x, none), xs, ?_, ?_, rfl, rfl,
        fun v hv => hl v (List.mem_cons_of_mem x hv)⟩
      · simp only [queue.Queue.call, queue.Dequeue_cons x xs hx]
      · simp only [deque.Deque.callFifo, deque.PopFront_cons x xs hx]
  | peek =>
    cases l with
    | nil => exact ⟨_, _, _, rfl, rfl, rfl, rfl, hl⟩
    | cons x xs =>
      have hx := hl x (List.mem_cons_self x xs)
      refine ⟨.result (x, none), .result (x, none), x :: xs, ?_, ?_, rfl, rfl, hl⟩
      · simp only [queue.Queue.call, queue.QPeek_cons x xs hx]
      · simp only [deque.Deque.callFifo, deque.PeekFront_cons x xs hx]

theorem stack_call_matches [GoType T] (l : List T) (op : SeqOp T)
    (hl : ∀ v ∈ l, GoType.isNilInterface v = false) (hop : op.addsNil = false) :
    ∃ os od l1, (stack.Stack.mk l).call op = some (os, { items := l1 }) ∧
      (deque.Deque.mk l).callLifo op = some (od, { items := l1 }) ∧
      od = os.relabel "deque is empty" ∧ os = od.relabel "stack is empty" ∧
      (∀ v ∈ l1, GoType.isNilInterface v = false) := by
  cases op with
  | push v =>
    refine ⟨_, _, l ++ [v], rfl, rfl, rfl, rfl, ?_⟩
    intro w hw
    rcases List.mem_append.mp hw with h | h
    · exact hl w h
    · rw [List.mem_singleton.mp h]
      exact hop
  | len => exact ⟨_, _, _, rfl, rfl, rfl, rfl, hl⟩
  | pop =>
    rcases list.nil_or_snoc l with rfl | ⟨xs, x, rfl⟩
    · exact ⟨_, _, _, rfl, rfl, rfl, rfl, hl⟩
    · have hx := hl x (by simp)
      refine ⟨.result (x, none), .result (x, none), xs, ?_, ?_, rfl, rfl,
        fun v hv => hl v (by simp [hv])⟩
      · simp only [stack.Stack.call, stack.SPop_snoc xs x hx]
      · simp only [deque.Deque.callLifo, deque.PopBack_snoc xs x hx]
  | peek =>
    rcases list.nil_or_snoc l with rfl | ⟨xs, x, rfl⟩
    · exact ⟨_, _, _, rfl, rfl, rfl, rfl, hl⟩
    · have hx := hl x (by simp)
      refine ⟨.result (x, none), .result (x, none), xs ++ [x], ?_, ?_, rfl, rfl, hl⟩
      · simp only [stack.Stack.call, stack.SPeek_snoc xs x hx]
      · simp only [deque.Deque.callLifo, deque.PeekBack_snoc xs x hx]

theorem queue_run_matches [GoType T] : ∀ (ops : List (SeqOp T)) (l : List T),
    (∀ v ∈ l, GoType.isNilInterface v = false) → (∀ op ∈ ops, op.addsNil = false) →
    ∃ outsQ outsD l1, (queue.Queue.mk l).run ops = some (outsQ, { items := l1 }) ∧
      (deque.Deque.mk l).runFifo ops = some (outsD, { items := l1 }) ∧
      outsD = outsQ.map (SeqOut.relabel "deque is empty") ∧
      outsQ = outsD.map (SeqOut.relabel "queue is empty") := by
  intro ops
  induction ops with
  | nil => intro l _ _; exact ⟨[], [], l, rfl, rfl, rfl, rfl⟩
  | cons op rest ih =>
    intro l hl hops
    obtain ⟨oq, od, l1, h1, h2, h3, h4, hl1⟩ :=
      queue_call_matches l op hl (hops op (List.mem_cons_self op rest))
    obtain ⟨outsQ, outsD, l2, h5, h6, h7, h8⟩ :=
      ih l1 hl1 (fun o ho => hops o (List.mem_cons_of_mem op ho))
    refine ⟨oq :: outsQ, od :: outsD, l2, ?_, ?_, ?_, ?_⟩
    · simp only [queue.Queue.run, h1, h5]
    · simp only [deque.Deque.runFifo, h2, h6]
    · rw [List.map_cons, ← h3, ← h7]
    · rw [List.map_cons, ← h4, ← h8]

theorem stack_run_matches [GoType T] : ∀ (ops : List (SeqOp T)) (l : List T),
    (∀ v ∈ l, GoType.isNilInterface v = false) → (∀ op ∈ ops, op.addsNil = false) →
    ∃ outsS outsD l1, (stack.Stack.mk l).run ops = some (outsS, { items := l1 }) ∧
      (deque.Deque.mk l).runLifo ops = some (outsD, { items := l1 }) ∧
      outsD = outsS.map (SeqOut.relabel "deque is empty") ∧
      outsS = outsD.map (SeqOut.relabel "stack is empty") := by
  intro ops
  induction ops with
  | nil => intro l _ _; exact ⟨[], [], l, rfl, rfl, rfl, rfl⟩
  | cons op rest ih =>
    intro l hl hops
    obtain ⟨os, od, l1, h1, h2, h3, h4, hl1⟩ :=
      stack_call_matches l op hl (hops op (List.mem_cons_self op rest))
    obtain ⟨outsS, outsD, l2, h5, h6, h7, h8⟩ :=
      ih l1 hl1 (fun o ho => hops o (List.mem_cons_of_mem op ho))
    refine ⟨os :: outsS, od :: outsD, l2, ?_, ?_, ?_, ?_⟩
    · simp only [stack.Stack.run, h1, h5]
    · simp only [deque.Deque.runLifo, h2, h6]
    · rw [List.map_cons, ← h3, ← h7]
    · rw [List.map_cons, ← h4, ← h8]

/-- C13 as stated fails: one `Dequeue` on a queue from `New` and one `PopFront`
on a deque from `New` return different errors, and so do `Stack.Pop` and
`PopBack`. -/
theorem queue_deque_errors_differ :
    ((queue.New : queue.Queue Nat).run [SeqOp.pop]).map Prod.fst ≠
      ((deque.New : deque.Deque Nat).runFifo [SeqOp.pop]).map Prod.fst ∧
    ((stack.New : stack.Stack Nat).run [SeqOp.pop]).map Prod.fst ≠
      ((deque.New : deque.Deque Nat).runLifo [SeqOp.pop]).map Prod.fst := by
  decide

/-- C13 (amended): for every sequence of calls from an empty container that
adds no nil interface value, `Queue.Enqueue/Dequeue/Peek/Len` and
`Deque.PushBack/PopFront/PeekFront/Len` all return, with the same values and
lengths, an error in the same calls, and the same sequence held afterwards;
the returns differ only in the message of the error, "queue is empty" against
"deque is empty".  The same holds for `Stack.Push/Pop/Peek/Len` and
`Deque.PushBack/PopBack/PeekBack/Len` with "stack is empty". -/
theorem queue_stack_restrict_deque [GoType T] (ops : List (SeqOp T))
    (hops : ∀ op ∈ ops, op.addsNil = false) :
    (∃ outsQ outsD q d, (queue.New : queue.Queue T).run ops = some (outsQ, q) ∧
      (deque.New : deque.Deque T).runFifo ops = some (outsD, d) ∧ q.items = d.items ∧
      outsD = outsQ.map (SeqOut.relabel "deque is empty") ∧
      outsQ = outsD.map (SeqOut.relabel "queue is empty")) ∧
    (∃ outsS outsD s d, (stack.New : stack.Stack T).run ops = some (outsS, s) ∧
      (deque.New : deque.Deque T).runLifo ops = some (outsD, d) ∧ s.items = d.items ∧
      outsD = outsS.map (SeqOut.relabel "deque is empty") ∧
      outsS = outsD.map (SeqOut.relabel "stack is empty")) := by
  have hnil : ∀ v ∈ ([] : List T), GoType.isNilInterface v = false :=
    fun v hv => absurd hv (List.not_mem_nil v)
  constructor
  · obtain ⟨outsQ, outsD, l1, h1, h2, h3, h4⟩ := queue_run_matches ops ([] : List T) hnil hops
    exact ⟨outsQ, outsD, _, _, h1, h2, rfl, h3, h4⟩
  · obtain ⟨outsS, outsD, l1, h1, h2, h3, h4⟩ := stack_run_matches ops ([] : List T) hnil hops
    exact ⟨outsS, outsD, _, _, h1, h2, rfl, h3, h4⟩

/-- Witness of C13 (amended) on the calls push 10, push 20, peek, pop, len,
pop, pop over `int`, the last removal being on the empty container. -/
theorem queue_stack_restrict_deque_witness :
    (∀ op ∈ demoCalls, op.addsNil = false) ∧
    ((∃ outsQ outsD q d, (queue.New : queue.Queue Nat).run demoCalls = some (outsQ, q) ∧
      (deque.New : deque.Deque Nat).runFifo demoCalls = some (outsD, d) ∧ q.items = d.items ∧
      outsD = outsQ.map (SeqOut.relabel "deque is empty") ∧
      outsQ = outsD.map (SeqOut.relabel "queue is empty")) ∧
    (∃ outsS outsD s d, (stack.New : stack.Stack Nat).run demoCalls = some (outsS, s) ∧
      (deque.New : deque.Deque Nat).runLifo demoCalls = some (outsD, d) ∧ s.items = d.items ∧
      outsD = outsS.map (SeqOut.relabel "deque is empty") ∧
      outsS = outsD.map (SeqOut.relabel "stack is empty"))) :=
  ⟨by decide, queue_stack_restrict_deque demoCalls (by decide)⟩

end sequences

namespace priorityqueue

variable {T : Type}

theorem PopItem_outcome [Inhabited T] (pq : PriorityQueue T) :
    ∃ r pq1, pq.PopItem = some (r, pq1) ∧
      r.2 = (if pq.Len = 0 then some "priority queue is empty" else none) := by
  by_cases h : pq.items.length = 0
  · exact ⟨_, _, PopItem_empty pq h, by simp [PriorityQueue.Len, h]⟩
  · obtain ⟨pq1, h1, _⟩ := PopItem_spec pq (by omega)
    exact ⟨_, _, h1, by simp [PriorityQueue.Len, h]⟩

theorem PeekItem_outcome [Inhabited T] (pq : PriorityQueue T) :
    ∃ r, pq.PeekItem = some (r, pq) ∧
      r.2 = (if pq.Len = 0 then some "priority queue is empty" else none) := by
  by_cases h : pq.items.length = 0
  · exact ⟨_, PeekItem_empty pq h, by simp [PriorityQueue.Len, h]⟩
  · exact ⟨_, PeekItem_spec pq (by omega), by simp [PriorityQueue.Len, h]⟩

/-- C14 at the queue holding priorities 1 and 5, smallest first: the slice is
in heap order, the exported `Pop` hands back the last slot, the item of
priority 5, and leaves the item of priority 1, which the comparator ranks
before the returned one. -/
theorem exported_Pop_returns_last_slot :
    HeapBelow (minFirst : Comparator Nat) twoItems.items twoItems.Len ∧
    twoItems.Pop = some (⟨5, 5, 1⟩, { items := [⟨1, 1, 0⟩], comparator := minFirst }) ∧
    (minFirst : Comparator Nat) ⟨1, 1, 0⟩ ⟨5, 5, 1⟩ = true := by
  refine ⟨?_, by rfl, by decide⟩
  intro k a b hk0 hkn ha hb
  have hk : k = 1 := by
    have : twoItems.Len = 2 := rfl
    omega
  subst hk
  simp [twoItems] at ha hb
  subst ha
  subst hb
  decide

end priorityqueue

section errors

variable {T : Type}

/-- C15 as stated fails: on fresh containers the error of `PopItem` is not
"container is empty", and the errors of `PopItem`, `PopFront`, `Dequeue` and
`Stack.Pop` are four different messages. -/
theorem error_messages_differ :
    ((priorityqueue.New priorityqueue.minFirst :
        priorityqueue.PriorityQueue Nat).PopItem).map (fun r => r.1.2) ≠
      some (some "container is empty") ∧
    ((priorityqueue.New priorityqueue.minFirst :
        priorityqueue.PriorityQueue Nat).PopItem).map (fun r => r.1.2) =
      some (some "priority queue is empty") ∧
    ((deque.New : deque.Deque Nat).PopFront).map (fun r => r.1.2) = some (some "deque is empty") ∧
    ((queue.New : queue.Queue Nat).Dequeue).map (fun r => r.1.2) = some (some "queue is empty") ∧
    ((stack.New : stack.Stack Nat).Pop).map (fun r => r.1.2) = some (some "stack is empty") := by
  decide

/-- C15 (amended): the one error that the library returns is that of a
removal or peek operation called on an empty container, and its message names
the container: "priority queue is empty" for `PopItem` and `PeekItem`, "deque
is empty" for the four deque operations, "queue is empty" for `Dequeue` and
`Queue.Peek`, "stack is empty" for `Stack.Pop` and `Stack.Peek`.  Each of the
ten operations returns that error whenever its container holds no element;
on a container that holds an element no error is returned: the operation
returns with a nil error, and it can only fail to return when a value it
holds is a nil interface. -/
theorem error_message_names_container [GoType T] (pq : priorityqueue.PriorityQueue T)
    (d : deque.Deque T) (q : queue.Queue T) (s : stack.Stack T) :
    (∃ r pq1, pq.PopItem = some (r, pq1) ∧
      r.2 = (if pq.Len = 0 then some "priority queue is empty" else none)) ∧
    (∃ r pq1, pq.PeekItem = some (r, pq1) ∧
      r.2 = (if pq.Len = 0 then some "priority queue is empty" else none)) ∧
    (match d.PopFront with
      | none => ∃ v ∈ d.items, GoType.isNilInterface v = true
      | some (r, _) => r.2 = (if d.Len = 0 then some "deque is empty" else none)) ∧
    (match d.PopBack with
      | none => ∃ v ∈ d.items, GoType.isNilInterface v = true
      | some (r, _) => r.2 = (if d.Len = 0 then some "deque is empty" else none)) ∧
    (match d.PeekFront with
      | none => ∃ v ∈ d.items, GoType.isNilInterface v = true
      | some (r, _) => r.2 = (if d.Len = 0 then some "deque is empty" else none)) ∧
    (match d.PeekBack with
      | none => ∃ v ∈ d.items, GoType.isNilInterface v = true
      | some (r, _) => r.2 = (if d.Len = 0 then some "deque is empty" else none)) ∧
    (match q.Dequeue with
      | none => ∃ v ∈ q.items, GoType.isNilInterface v = true
      | some (r, _) => r.2 = (if q.Len = 0 then some "queue is empty" else none)) ∧
    (match q.Peek with
      | none => ∃ v ∈ q.items, GoType.isNilInterface v = true
      | some (r, _) => r.2 = (if q.Len = 0 then some "queue is empty" else none)) ∧
    (match s.Pop with
      | none => ∃ v ∈ s.items, GoType.isNilInterface v = true
      | some (r, _) => r.2 = (if s.Len = 0 then some "stack is empty" else none)) ∧
    (match s.Peek with
      | none => ∃ v ∈ s.items, GoType.isNilInterface v = true
      | some (r, _) => r.2 = (if s.Len = 0 then some "stack is empty" else none)) := by
  refine ⟨priorityqueue.PopItem_outcome pq, ?_, deque.PopFront_outcome d, deque.PopBack_outcome d,
    deque.PeekFront_outcome d, deque.PeekBack_outcome d, queue.Dequeue_outcome q,
    queue.QPeek_outcome q, stack.SPop_outcome s, stack.SPeek_outcome s⟩
  obtain ⟨r, h1, h2⟩ := priorityqueue.PeekItem_outcome pq
  exact ⟨r, pq, h1, h2⟩

end errors

namespace priorityqueue

variable {T : Type}

theorem isHeap_items {pq : PriorityQueue T} (ho : StrictWeakOrder pq.comparator)
    (hh : pq.IsHeap) : HeapBelow pq.comparator pq.items pq.items.length := by
  intro k a b hk0 hkn ha hb
  have h1 : pq.keys[k]? = some a.key := by rw [keys_getElem?, ha]; rfl
  have h2 : pq.keys[(k - 1) / 2]? = some b.key := by rw [keys_getElem?, hb]; rfl
  have := hh k a.key b.key hk0 hkn h1 h2
  rwa [keyLt_key ho] at this

/-- C18: under a comparator that is a strict weak order on items (a relation
on their `Value` and `Priority`), every sequence of `PushItem`, `PopItem` and
`PeekItem` calls on a queue from `New` runs to a state in which, for every
non-root index `i`, the comparator applied to `items[i]` and
`items[(i-1)/2]` is false. -/
theorem heap_invariant_reachable [Inhabited T] (cmp : Comparator T)
    (ho : StrictWeakOrder cmp) (ops : List (Op T)) :
    ∃ pq, (New cmp).run ops = some pq ∧
      ∀ (i : Nat) (a b : Item T), 0 < i → i < pq.Len → pq.items[i]? = some a →
        pq.items[(i - 1) / 2]? = some b → cmp a b = false := by
  obtain ⟨pq, h1, h2, h3⟩ := run_spec ops (New cmp)
  have hcmp : pq.comparator = cmp := h2.trans (New_comparator cmp)
  refine ⟨pq, h1, ?_⟩
  have hh := isHeap_items (hcmp ▸ ho) (h3 ((New_comparator cmp).symm ▸ ho) (New_isHeap cmp))
  rw [hcmp] at hh
  exact hh

/-- Witness of C18 with smallest-first on the calls push 5, push 1, pop,
push 0, push 3, peek. -/
theorem heap_invariant_reachable_witness :
    StrictWeakOrder (minFirst : Comparator Nat) ∧
    ∃ pq : PriorityQueue Nat,
      (New minFirst).run
        [Op.push 5 5, Op.push 1 1, Op.pop, Op.push 0 0, Op.push 3 3, Op.peek] = some pq ∧
      ∀ (i : Nat) (a b : Item Nat), 0 < i → i < pq.Len → pq.items[i]? = some a →
        pq.items[(i - 1) / 2]? = some b → (minFirst : Comparator Nat) a b = false :=
  ⟨minFirst_swo, heap_invariant_reachable minFirst minFirst_swo _⟩

theorem Swap_some_bounds {pq pq1 : PriorityQueue T} {i j : Nat}
    (h : pq.Swap i j = some pq1) : i < pq.items.length ∧ j < pq.items.length := by
  unfold PriorityQueue.Swap at h
  constructor
  · by_contra hi
    rw [List.getElem?_eq_none (by omega)] at h
    simp at h
  · by_contra hj
    have hn : pq.items[j]? = none := List.getElem?_eq_none (by omega)
    rw [hn] at h
    cases hi : pq.items[i]? <;> simp [hi] at h

theorem Swap_indexOK {pq pq1 : PriorityQueue T} {i j : Nat} (hok : pq.IndexOK)
    (h : pq.Swap i j = some pq1) : pq1.IndexOK := by
  obtain ⟨hi, hj⟩ := Swap_some_bounds h
  obtain ⟨pq2, h1, _, h3⟩ := Swap_spec pq i j hi hj
  rw [h] at h1
  cases h1
  intro k a ha
  rw [h3 k] at ha
  by_cases hkj : k = j
  · rw [if_pos hkj, List.getElem?_eq_getElem hi] at ha
    cases ha
    exact hkj.symm
  · rw [if_neg hkj] at ha
    by_cases hki : k = i
    · rw [if_pos hki, List.getElem?_eq_getElem hj] at ha
      cases ha
      exact hki.symm
    · rw [if_neg hki] at ha
      exact hok k a ha

theorem upLoop_preserves (P : PriorityQueue T → Prop)
    (hP : ∀ (pq pq1 : PriorityQueue T) (i j : Nat), P pq → pq.Swap i j = some pq1 → P pq1) :
    ∀ (fuel : Nat) (pq pq1 : PriorityQueue T) (j : Nat), P pq →
      heap.upLoop fuel pq j = some pq1 → P pq1 := by
  intro fuel
  induction fuel with
  | zero =>
    intro pq pq1 j hp h
    rw [heap.upLoop] at h
    cases h
    exact hp
  | succ f ih =>
    intro pq pq1 j hp h
    rw [heap.upLoop] at h
    by_cases hij : (j - 1) / 2 = j
    · rw [if_pos hij] at h
      cases h
      exact hp
    · rw [if_neg hij] at h
      cases hl : pq.Less j ((j - 1) / 2) with
      | none => rw [hl] at h; cases h
      | some r =>
        rw [hl] at h
        cases r with
        | false => cases h; exact hp
        | true =>
          simp only at h
          cases hs : pq.Swap ((j - 1) / 2) j with
          | none => rw [hs] at h; cases h
          | some pq2 =>
            rw [hs] at h
            exact ih pq2 pq1 _ (hP pq pq2 _ _ hp hs) h

theorem downLoop_preserves (P : PriorityQueue T → Prop)
    (hP : ∀ (pq pq1 : PriorityQueue T) (i j : Nat), P pq → pq.Swap i j = some pq1 → P pq1)
    (n : Nat) :
    ∀ (fuel : Nat) (pq pq1 : PriorityQueue T) (i : Nat), P pq →
      heap.downLoop n fuel pq i = some pq1 → P pq1 := by
  intro fuel
  induction fuel with
  | zero =>
    intro pq pq1 i hp h
    rw [heap.downLoop] at h
    cases h
    exact hp
  | succ f ih =>
    intro pq pq1 i hp h
    rw [heap.downLoop] at h
    by_cases hj1 : n ≤ 2 * i + 1
    · rw [if_pos hj1] at h
      cases h
      exact hp
    · rw [if_neg hj1] at h
      cases hc : (if 2 * i + 1 + 1 < n then pq.Less (2 * i + 1 + 1) (2 * i + 1)
          else some false) with
      | none => rw [hc] at h; cases h
      | some r =>
        rw [hc] at h
        simp only at h
        cases hl : pq.Less (if r = true then 2 * i + 1 + 1 else 2 * i + 1) i with
        | none => rw [hl] at h; cases h
        | some c =>
          rw [hl] at h
          cases c with
          | false => cases h; exact hp
          | true =>
            simp only at h
            cases hs : pq.Swap i (if r = true then 2 * i + 1 + 1 else 2 * i + 1) with
            | none => rw [hs] at h; cases h
            | some pq2 =>
              rw [hs] at h
              exact ih pq2 pq1 _ (hP pq pq2 _ _ hp hs) h

theorem Push_indexOK {pq : PriorityQueue T} (hok : pq.IndexOK) (x : Item T) :
    (pq.Push x).IndexOK := by
  intro k a ha
  simp only [PriorityQueue.Push] at ha
  by_cases hk : k < pq.items.length
  · rw [List.getElem?_append_left hk] at ha
    exact hok k a ha
  · rw [List.getElem?_append_right (by omega)] at ha
    have hk0 : k - pq.items.length = 0 := by
      by_contra hne
      rw [List.getElem?_eq_none (by simp; omega)] at ha
      cases ha
    rw [hk0] at ha
    simp at ha
    rw [← ha]
    show pq.items.length = k
    omega

theorem Pop_indexOK {pq pq1 : PriorityQueue T} {it : Item T} (hok : pq.IndexOK)
    (h : pq.Pop = some (it, pq1)) : pq1.IndexOK := by
  unfold PriorityQueue.Pop at h
  simp only at h
  by_cases h0 : pq.items.length = 0
  · rw [if_pos h0] at h; cases h
  · rw [if_neg h0] at h
    cases hl : pq.items[pq.items.length - 1]? with
    | none => rw [hl] at h; cases h
    | some x =>
      rw [hl] at h
      cases h
      intro k a ha
      simp only at ha
      by_cases hk : k < pq.items.length - 1
      · rw [List.getElem?_take_of_lt hk] at ha
        exact hok k a ha
      · rw [List.getElem?_eq_none (by simp; omega)] at ha
        cases ha

theorem heapPush_indexOK {pq pq1 : PriorityQueue T} (hok : pq.IndexOK) (x : Item T)
    (h : heap.Push pq x = some pq1) : pq1.IndexOK :=
  upLoop_preserves PriorityQueue.IndexOK (fun _ _ _ _ hp hs => Swap_indexOK hp hs) _ _ _ _
    (Push_indexOK hok x) h

theorem heapPop_indexOK {pq pq1 : PriorityQueue T} {it : Item T} (hok : pq.IndexOK)
    (h : heap.Pop pq = some (it, pq1)) : pq1.IndexOK := by
  unfold heap.Pop at h
  by_cases h0 : pq.Len = 0
  · rw [if_pos h0] at h; cases h
  · rw [if_neg h0] at h
    simp only at h
    cases hs : pq.Swap 0 (pq.Len - 1) with
    | none => rw [hs] at h; cases h
    | some pq2 =>
      rw [hs] at h
      simp only at h
      cases hd : heap.down pq2 0 (pq.Len - 1) with
      | none => rw [hd] at h; cases h
      | some pq3 =>
        rw [hd] at h
        simp only at h
        have h3 : pq3.IndexOK :=
          downLoop_preserves PriorityQueue.IndexOK (fun _ _ _ _ hp hs => Swap_indexOK hp hs)
            _ _ _ _ _ (Swap_indexOK hok hs) hd
        exact Pop_indexOK h3 h

theorem call_indexOK [Inhabited T] {pq pq1 : PriorityQueue T} {op : Op T}
    {r : Option (T × Option String)} (hok : pq.IndexOK) (h : pq.call op = some (r, pq1)) :
    pq1.IndexOK := by
  cases op with
  | push v p =>
    simp only [PriorityQueue.call] at h
    cases hp : pq.PushItem v p with
    | none => rw [hp] at h; cases h
    | some pq2 =>
      rw [hp] at h
      cases h
      exact heapPush_indexOK hok _ hp
  | pop =>
    simp only [PriorityQueue.call] at h
    cases hp : pq.PopItem with
    | none => rw [hp] at h; cases h
    | some res =>
      obtain ⟨r1, pq2⟩ := res
      rw [hp] at h
      cases h
      unfold PriorityQueue.PopItem at hp
      by_cases h0 : pq.items.length = 0
      · rw [if_pos h0] at hp
        cases hp
        exact hok
      · rw [if_neg h0] at hp
        cases hh : heap.Pop pq with
        | none => rw [hh] at hp; cases hp
        | some res2 =>
          obtain ⟨it, pq3⟩ := res2
          rw [hh] at hp
          cases hp
          exact heapPop_indexOK hok hh
  | peek =>
    simp only [PriorityQueue.call] at h
    cases hp : pq.PeekItem with
    | none => rw [hp] at h; cases h
    | some res =>
      obtain ⟨r1, pq2⟩ := res
      rw [hp] at h
      cases h
      unfold PriorityQueue.PeekItem at hp
      by_cases h0 : pq.items.length = 0
      · rw [if_pos h0] at hp
        cases hp
        exact hok
      · rw [if_neg h0] at hp
        cases hx : pq.items[0]? with
        | none => rw [hx] at hp; cases hp
        | some x =>
          rw [hx] at hp
          cases hp
          exact hok

theorem run_indexOK [Inhabited T] : ∀ (ops : List (Op T)) (pq pq1 : PriorityQueue T),
    pq.IndexOK → pq.run ops = some pq1 → pq1.IndexOK := by
  intro ops
  induction ops with
  | nil =>
    intro pq pq1 hok h
    cases h
    exact hok
  | cons op rest ih =>
    intro pq pq1 hok h
    simp only [PriorityQueue.run] at h
    cases hc : pq.call op with
    | none => rw [hc] at h; cases h
    | some res =>
      obtain ⟨r, pq2⟩ := res
      rw [hc] at h
      exact ih pq2 pq1 (call_indexOK hok hc) h

theorem New_indexOK (cmp : Comparator T) : (New cmp).IndexOK := by
  intro k a ha
  rw [New_eq] at ha
  simp at ha

/-- C19: for every comparator, every sequence of public calls on a queue from
`New` runs to a state in which every stored item has its `index` field equal
to its position; `Swap` leaves in both swapped slots an item whose `index` is
the position of the slot, and `Push` stores the new item last with `index`
equal to the length before the call. -/
theorem index_bookkeeping [Inhabited T] (cmp : Comparator T) (ops : List (Op T)) :
    (∃ pq, (New cmp).run ops = some pq ∧
      ∀ (i : Nat) (a : Item T), i < pq.Len → pq.items[i]? = some a → a.index = i) ∧
    (∀ (pq pq1 : PriorityQueue T) (i j : Nat), pq.Swap i j = some pq1 →
      ∃ a b, pq1.items[i]? = some a ∧ a.index = i ∧ pq1.items[j]? = some b ∧ b.index = j) ∧
    (∀ (pq : PriorityQueue T) (x : Item T),
      (pq.Push x).items[pq.Len]? = some { x with index := pq.Len } ∧
      (pq.Push x).Len = pq.Len + 1) := by
  refine ⟨?_, ?_, ?_⟩
  · obtain ⟨pq, h1, _⟩ := run_spec ops (New cmp)
    exact ⟨pq, h1, fun i a _ ha => run_indexOK ops _ pq (New_indexOK cmp) h1 i a ha⟩
  · intro pq pq1 i j h
    obtain ⟨hi, hj⟩ := Swap_some_bounds h
    obtain ⟨pq2, h1, _, h3⟩ := Swap_spec pq i j hi hj
    rw [h] at h1
    cases h1
    refine ⟨{ pq.items[j] with index := i }, { pq.items[i] with index := j }, ?_, rfl, ?_, rfl⟩
    · rw [h3 i]
      by_cases hij : i = j
      · subst hij
        rw [if_pos rfl, List.getElem?_eq_getElem hi]
        rfl
      · rw [if_neg hij, if_pos rfl, List.getElem?_eq_getElem hj]
        rfl
    · rw [h3 j, if_pos rfl, List.getElem?_eq_getElem hi]
      rfl
  · intro pq x
    simp [PriorityQueue.Push, PriorityQueue.Len]

/-- C20: for every queue state, comparator, value and priority, `PeekItem`,
`PopItem` and `PushItem` return without a panic: no slot access made by them,
by the inner `Pop`, or by the `Swap` and `Less` calls of the sift loops is
out of range. -/
theorem public_calls_never_panic [Inhabited T] (pq : PriorityQueue T) (v : T) (p : Int) :
    (∃ r, pq.PeekItem = some (r, pq)) ∧ (∃ r pq1, pq.PopItem = some (r, pq1)) ∧
    (∃ pq1, pq.PushItem v p = some pq1) := by
  refine ⟨?_, ?_, ?_⟩
  · obtain ⟨r, h, _⟩ := PeekItem_outcome pq
    exact ⟨r, h⟩
  · obtain ⟨r, pq1, h, _⟩ := PopItem_outcome pq
    exact ⟨r, pq1, h⟩
  · obtain ⟨pq1, h, _⟩ := PushItem_spec pq v p
    exact ⟨pq1, h⟩

end priorityqueue

namespace priorityqueue

/-- C21: the priority queue is not stable.  Pushing the values A, B, C in
that order, all with priority 1, onto a queue from `New` with the comparator
`a.Priority < b.Priority` and calling `PopItem` until `Len()` is 0 returns,
each time with a nil error, the values A, C, B, which is not the order of
insertion. -/
theorem priority_queue_not_stable :
    (∀ p ∈ tiedPairs, p.2 = 1) ∧ tiedPairs.map Prod.fst = ["A", "B", "C"] ∧
    (∃ (pq pqf : PriorityQueue String) (rs : List (String × Option String)),
      pushAll (New minFirst) tiedPairs = some pq ∧ drain pq = some (rs, pqf) ∧ pqf.Len = 0 ∧
      rs = [("A", none), ("C", none), ("B", none)] ∧
      rs.map Prod.fst ≠ tiedPairs.map Prod.fst) := by
  refine ⟨by decide, by decide, ?_⟩
  refine ⟨{ items := [⟨"A", 1, 0⟩, ⟨"B", 1, 1⟩, ⟨"C", 1, 2⟩], comparator := minFirst },
    { items := [], comparator := minFirst }, [("A", none), ("C", none), ("B", none)],
    by rfl, by rfl, by rfl, rfl, by decide⟩

end priorityqueue
